import Mathlib

/-!
# Local sequence alignment (`project3.hh`)

A shallow embedding of the penalty table, the dynamic-programming alignment routine
`local_alignment` and the candidate selector `local_alignment_best_match`, the definitions
used to state and prove their properties, and then the theorems.

Modelling conventions.

* `std::string` is `List Char`; `std::vector<std::shared_ptr<Protein>>` is `List Protein`.
* C++ `int` is `Int` kept in the 32-bit two's complement range: the three candidate sums
  of a cell, the only arithmetic of the routine, are reduced by `wrap_int`, which is what
  the compiled program computes when a sum leaves the range.  The table stores the scores
  it is given; a table of the program holds scores in the range of `int`.
* `std::map<char, std::map<char, int>>` is a partial function of two keys.  Reading it with
  `operator[]` inserts a value-initialised entry when the key is absent, so `get_penalty`
  returns the updated table together with the score.
* The matrices `D` and `B` are lists of rows, read with `get2` and written with `set2`.
* The initialisation loops, which write `0` and `'?'` into every cell, are the constant
  matrices of `init_state`; the two `for` loops that fill the matrices and the scan of the
  bottom row are left folds over the index range `1, ..., m`.
* The `while` loop of the traceback takes a fuel argument and yields `none` when it is used up;
  `local_alignment` runs it with `n + m + 1` steps, and `local_alignment_eq` shows that this
  is always enough.
* Indices are natural numbers.  The source computes `i - 1` and `j - 1` only at cells with
  `i ≥ 1` and `j ≥ 1` (`follows_interior`), where truncated subtraction is exact.
* Reading `proteins[0]` of an empty vector is undefined in the source and is `none` here.
* Writing to `std::cout` is not modelled; the printed `best_score` is a field of the result.
-/

namespace Project3

/-! ## Data model -/

/-- A single protein: description and residue sequence. -/
structure Protein where
  description : List Char
  sequence : List Char
  deriving DecidableEq

/-- The BLOSUM penalty table: `_penaltyMap` as a two-level partial map. -/
structure BlosumPenaltyArray where
  penaltyMap : Char → Option (Char → Option Int)

/-- The table of a default-constructed `BlosumPenaltyArray`: no key registered. -/
def BlosumPenaltyArray.empty : BlosumPenaltyArray := ⟨fun _ => none⟩

/-- The inner map stored under `c1`, or the empty inner map that `operator[]` creates. -/
def inner_map (bpa : BlosumPenaltyArray) (c1 : Char) : Char → Option Int :=
  (bpa.penaltyMap c1).getD (fun _ => none)

/-- `get_penalty`: `return _penaltyMap[c1][c2];`.  Both `operator[]` calls insert a
value-initialised entry (an empty inner map, the score `0`) when the key is missing. -/
def get_penalty (bpa : BlosumPenaltyArray) (c1 c2 : Char) : Int × BlosumPenaltyArray :=
  let inner := inner_map bpa c1
  let v : Int := (inner c2).getD 0
  (v, ⟨fun a => if a = c1 then some (fun b => if b = c2 then some v else inner b)
                else bpa.penaltyMap a⟩)

/-- `set_penalty`: `_penaltyMap[c1][c2] = penalty;`. -/
def set_penalty (bpa : BlosumPenaltyArray) (c1 c2 : Char) (penalty : Int) :
    BlosumPenaltyArray :=
  let inner := inner_map bpa c1
  ⟨fun a => if a = c1 then some (fun b => if b = c2 then some penalty else inner b)
            else bpa.penaltyMap a⟩

/-- The score that `get_penalty` returns, without the updated table. -/
def penalty_value (bpa : BlosumPenaltyArray) (c1 c2 : Char) : Int :=
  (get_penalty bpa c1 c2).1

/-! ## Machine integers -/

/-- The value of a 32-bit `int` that holds the sum `x`: `x` reduced modulo `2^32` into
`-2^31 ≤ _ < 2^31`. -/
def wrap_int (x : Int) : Int := (x + 2147483648) % 4294967296 - 2147483648

/-- The integer `x` is a value of a 32-bit `int`. -/
def in_int_range (x : Int) : Prop := -2147483648 ≤ x ∧ x < 2147483648

instance in_int_range.decidable (x : Int) : Decidable (in_int_range x) := by
  unfold in_int_range
  infer_instance

/-! ## Matrices -/

/-- Read `M[i][j]`. -/
def get2 {α : Type} (M : List (List α)) (i j : Nat) (d : α) : α :=
  (M.getD i []).getD j d

/-- Write `M[i][j] = v`. -/
def set2 {α : Type} (M : List (List α)) (i j : Nat) (v : α) : List (List α) :=
  M.set i ((M.getD i []).set j v)

/-- The character `string[k]`. -/
def char_at (s : List Char) (k : Nat) : Char := s.getD k (Char.ofNat 0)

/-! ## The alignment routine -/

/-- The state of the fill loops: score matrix, backtrack matrix and the penalty table. -/
structure AlignState where
  D : List (List Int)
  B : List (List Char)
  bpa : BlosumPenaltyArray

/-- The matrices after the initialisation loops: every `D[i][j] = 0`, every `B[i][j] = '?'`. -/
def init_state (n m : Nat) (bpa : BlosumPenaltyArray) : AlignState :=
  ⟨List.replicate (n + 1) (List.replicate (m + 1) 0),
   List.replicate (n + 1) (List.replicate (m + 1) '?'), bpa⟩

/-- The backtrack character chosen from the three candidate scores. -/
def direction (u l diag : Int) : Char :=
  if l > u then (if l > diag then 'l' else 'd') else (if u > diag then 'u' else 'd')

/-- The body of the inner fill loop at cell `(i, j)`: the three candidates (three table
reads, in this order, each sum an `int`), the backtrack character, and
`D[i][j] = max (max u l) diag`.  The assignments to `temp_max` and `real_max` that precede
the two `std::max` calls are overwritten before they are read. -/
def cell_step (string1 string2 : List Char) (i j : Nat) (s : AlignState) : AlignState :=
  let r1 := get_penalty s.bpa (char_at string1 (i - 1)) '*'
  let u := wrap_int (get2 s.D (i - 1) j 0 + r1.1)
  let r2 := get_penalty r1.2 '*' (char_at string2 (j - 1))
  let l := wrap_int (get2 s.D i (j - 1) 0 + r2.1)
  let r3 := get_penalty r2.2 (char_at string1 (i - 1)) (char_at string2 (j - 1))
  let diag := wrap_int (get2 s.D (i - 1) (j - 1) 0 + r3.1)
  ⟨set2 s.D i j (max (max u l) diag), set2 s.B i j (direction u l diag), r3.2⟩

/-- The inner loop `for (int j = 1; j < m + 1; j++)` of row `i`. -/
def fill_row (string1 string2 : List Char) (m i : Nat) (s : AlignState) : AlignState :=
  (List.range' 1 m).foldl (fun s j => cell_step string1 string2 i j s) s

/-- The outer loop `for (int i = 1; i < n + 1; i++)`. -/
def fill (string1 string2 : List Char) (n m : Nat) (s : AlignState) : AlignState :=
  (List.range' 1 n).foldl (fun s i => fill_row string1 string2 m i s) s

/-- The body of the best-score scan: the pair is `(best_score, bot_j)`. -/
def best_step (D : List (List Int)) (bot_i : Nat) (acc : Int × Nat) (j : Nat) : Int × Nat :=
  if get2 D bot_i j 0 > acc.1 then (get2 D bot_i j 0, j) else acc

/-- The scan of the bottom row, from `best_score = 0`, `bot_j = 0`. -/
def best_scan (D : List (List Int)) (bot_i m : Nat) : Int × Nat :=
  (List.range' 1 m).foldl (best_step D bot_i) (0, 0)

/-- The backtracking `while (B[i][j] != '?')` loop; the two strings are built backwards. -/
def traceback (string1 string2 : List Char) (B : List (List Char)) :
    Nat → Nat → Nat → List Char → List Char → Option (List Char × List Char)
  | 0, _, _, _, _ => none
  | fuel + 1, i, j, m1, m2 =>
    if get2 B i j '?' = '?' then some (m1, m2)
    else if get2 B i j '?' = 'u' then
      traceback string1 string2 B fuel (i - 1) j (m1 ++ [char_at string1 (i - 1)]) (m2 ++ ['*'])
    else if get2 B i j '?' = 'l' then
      traceback string1 string2 B fuel i (j - 1) (m1 ++ ['*']) (m2 ++ [char_at string2 (j - 1)])
    else if get2 B i j '?' = 'd' then
      traceback string1 string2 B fuel (i - 1) (j - 1)
        (m1 ++ [char_at string1 (i - 1)]) (m2 ++ [char_at string2 (j - 1)])
    else traceback string1 string2 B fuel i j m1 m2

/-- What `local_alignment` returns and leaves in its reference parameters. -/
structure AlignResult where
  score : Int
  matchString1 : List Char
  matchString2 : List Char
  bpa : BlosumPenaltyArray

/-- `local_alignment`.  The prior contents of the two output strings are overwritten
before they are read, so they are not arguments. -/
def local_alignment (string1 string2 : List Char) (bpa : BlosumPenaltyArray) :
    Option AlignResult :=
  let n := string1.length
  let m := string2.length
  let s := fill string1 string2 n m (init_state n m bpa)
  let best := best_scan s.D n m
  match traceback string1 string2 s.B (n + m + 1) n best.2 [] [] with
  | none => none
  | some (m1, m2) => some ⟨best.1, m1.reverse, m2.reverse, s.bpa⟩

/-! ## The candidate selector -/

/-- The state of the candidate loop of `local_alignment_best_match`. -/
structure MatchState where
  best_protein : Protein
  best_score : Int
  matchString1 : List Char
  matchString2 : List Char
  bpa : BlosumPenaltyArray

/-- The body of the candidate loop. -/
def match_step (string1 : List Char) (st : MatchState) (p : Protein) : Option MatchState :=
  match local_alignment string1 p.sequence st.bpa with
  | none => none
  | some r =>
    if r.score > st.best_score then
      some ⟨p, r.score, r.matchString1, r.matchString2, r.bpa⟩
    else
      some ⟨st.best_protein, st.best_score, st.matchString1, st.matchString2, r.bpa⟩

/-- `local_alignment_best_match`; `matchString1` and `matchString2` are the contents of the
two reference parameters at the call. -/
def local_alignment_best_match (proteins : List Protein) (string1 : List Char)
    (bpa : BlosumPenaltyArray) (matchString1 matchString2 : List Char) : Option MatchState :=
  match proteins with
  | [] => none
  | p0 :: _ => proteins.foldlM (match_step string1) ⟨p0, 0, matchString1, matchString2, bpa⟩

/-! ## A table for the examples -/

/-- The table scoring `+2` for a symbol against itself and `-1` for every other pair. -/
def simple_table : BlosumPenaltyArray :=
  ⟨fun a => some (fun b => some (if a = b then 2 else -1))⟩

/-! ## Closed forms of the matrices and the loop invariants -/

/-- A matrix with `r` rows of `c` entries each. -/
def Dims {α : Type} (M : List (List α)) (r c : Nat) : Prop :=
  M.length = r ∧ ∀ row ∈ M, row.length = c

/-- Row `i + 1` of the score matrix from row `i` (`prev`), for the residue `c` of `string1`. -/
def next_row (pen : Char → Char → Int) (c : Char) (s2 : List Char) (prev : Nat → Int) :
    Nat → Int
  | 0 => 0
  | j + 1 =>
    max (max (wrap_int (prev (j + 1) + pen c '*'))
        (wrap_int (next_row pen c s2 prev j + pen '*' (char_at s2 j))))
      (wrap_int (prev j + pen c (char_at s2 j)))

/-- The value that the fill loops leave in `D[i][j]`, as a function of the scores `pen`. -/
def Dval (pen : Char → Char → Int) (s1 s2 : List Char) : Nat → Nat → Int
  | 0 => fun _ => 0
  | i + 1 => next_row pen (char_at s1 i) s2 (Dval pen s1 s2 i)

/-- The sum behind the candidate `u` of cell `(i + 1, j + 1)`, before it is stored in an
`int`. -/
def raw_u (pen : Char → Char → Int) (s1 s2 : List Char) (i j : Nat) : Int :=
  Dval pen s1 s2 i (j + 1) + pen (char_at s1 i) '*'

/-- The sum behind the candidate `l` of cell `(i + 1, j + 1)`. -/
def raw_l (pen : Char → Char → Int) (s1 s2 : List Char) (i j : Nat) : Int :=
  Dval pen s1 s2 (i + 1) j + pen '*' (char_at s2 j)

/-- The sum behind the candidate `diag` of cell `(i + 1, j + 1)`. -/
def raw_d (pen : Char → Char → Int) (s1 s2 : List Char) (i j : Nat) : Int :=
  Dval pen s1 s2 i j + pen (char_at s1 i) (char_at s2 j)

/-- The candidate `u` of cell `(i + 1, j + 1)`. -/
def cand_u (pen : Char → Char → Int) (s1 s2 : List Char) (i j : Nat) : Int :=
  wrap_int (raw_u pen s1 s2 i j)

/-- The candidate `l` of cell `(i + 1, j + 1)`. -/
def cand_l (pen : Char → Char → Int) (s1 s2 : List Char) (i j : Nat) : Int :=
  wrap_int (raw_l pen s1 s2 i j)

/-- The candidate `diag` of cell `(i + 1, j + 1)`. -/
def cand_d (pen : Char → Char → Int) (s1 s2 : List Char) (i j : Nat) : Int :=
  wrap_int (raw_d pen s1 s2 i j)

/-- No candidate sum of the cells `(1, 1)` to `(n, m)` leaves the range of `int`. -/
def CellsInRange (pen : Char → Char → Int) (s1 s2 : List Char) (n m : Nat) : Prop :=
  ∀ i j, i < n → j < m →
    in_int_range (raw_u pen s1 s2 i j) ∧ in_int_range (raw_l pen s1 s2 i j) ∧
      in_int_range (raw_d pen s1 s2 i j)

/-- The character that the fill loops leave in `B[i][j]`. -/
def Bval (pen : Char → Char → Int) (s1 s2 : List Char) : Nat → Nat → Char
  | i + 1, j + 1 => direction (cand_u pen s1 s2 i j) (cand_l pen s1 s2 i j) (cand_d pen s1 s2 i j)
  | _, _ => '?'

/-- Cell `(i2, j2)` has been written when the loops are about to write cell `(i, j)`. -/
def Filled (i j i2 j2 : Nat) : Prop := i2 < i ∨ (i2 = i ∧ j2 < j)

instance Filled.decidable (i j i2 j2 : Nat) : Decidable (Filled i j i2 j2) := by
  unfold Filled
  infer_instance

/-- The loop invariant of the fill loops, before cell `(i, j)` is written. -/
def FillInv (pen : Char → Char → Int) (s1 s2 : List Char) (n m i j : Nat)
    (s : AlignState) : Prop :=
  Dims s.D (n + 1) (m + 1) ∧ Dims s.B (n + 1) (m + 1) ∧
  (∀ a b, penalty_value s.bpa a b = pen a b) ∧
  ∀ i2 j2, i2 ≤ n → j2 ≤ m →
    get2 s.D i2 j2 0 = (if Filled i j i2 j2 then Dval pen s1 s2 i2 j2 else 0) ∧
    get2 s.B i2 j2 '?' = (if Filled i j i2 j2 then Bval pen s1 s2 i2 j2 else '?')

/-! ## The scan of the bottom row, over the closed form -/

/-- The scan of the bottom row over the closed form of `D`. -/
def scan_row (row : Nat → Int) (m : Nat) : Int × Nat :=
  (List.range' 1 m).foldl (fun acc j => if row j > acc.1 then (row j, j) else acc) (0, 0)

/-- What the scan returns: `best` is the largest of `0` and the row entries, `bj` is the
first column holding it (or `0` when no entry is positive). -/
def ScanInv (row : Nat → Int) (k : Nat) (acc : Int × Nat) : Prop :=
  0 ≤ acc.1 ∧ acc.2 < k ∧ (acc.2 = 0 → acc.1 = 0) ∧
  (1 ≤ acc.2 → acc.1 = row acc.2 ∧ 0 < acc.1) ∧
  (∀ j, 1 ≤ j → j < k → row j ≤ acc.1) ∧
  (∀ j, 1 ≤ j → j < acc.2 → row j < acc.1)

/-! ## Walks through the matrix -/

/-- One step of the traceback: up, left or diagonal. -/
inductive Move where
  | up
  | left
  | diag
  deriving DecidableEq

/-- The cell reached from `(i, j)` by one backward step. -/
def prev_cell : Move → Nat → Nat → Nat × Nat
  | Move.up, i, j => (i - 1, j)
  | Move.left, i, j => (i, j - 1)
  | Move.diag, i, j => (i - 1, j - 1)

/-- The pair of characters appended to the two strings by one backward step from `(i, j)`. -/
def emit_pair (s1 s2 : List Char) : Move → Nat → Nat → Char × Char
  | Move.up, i, _ => (char_at s1 (i - 1), '*')
  | Move.left, _, j => ('*', char_at s2 (j - 1))
  | Move.diag, i, j => (char_at s1 (i - 1), char_at s2 (j - 1))

/-- The character stored in `B` for a step. -/
def move_char : Move → Char
  | Move.up => 'u'
  | Move.left => 'l'
  | Move.diag => 'd'

/-- The pairs appended while walking backwards from `(i, j)` along the moves. -/
def emit (s1 s2 : List Char) : List Move → Nat → Nat → List (Char × Char)
  | [], _, _ => []
  | mv :: r, i, j =>
    emit_pair s1 s2 mv i j :: emit s1 s2 r (prev_cell mv i j).1 (prev_cell mv i j).2

/-- The cell where a backward walk from `(i, j)` ends. -/
def walk_end : List Move → Nat → Nat → Nat × Nat
  | [], i, j => (i, j)
  | mv :: r, i, j => walk_end r (prev_cell mv i j).1 (prev_cell mv i j).2

/-- Every step of the walk leaves an interior cell (row and column at least 1). -/
def Interior : List Move → Nat → Nat → Prop
  | [], _, _ => True
  | mv :: r, i, j => 1 ≤ i ∧ 1 ≤ j ∧ Interior r (prev_cell mv i j).1 (prev_cell mv i j).2

/-- The walk is the one stored in `B`: each step is the recorded one and it ends at a `'?'`. -/
def Follows (pen : Char → Char → Int) (s1 s2 : List Char) : List Move → Nat → Nat → Prop
  | [], i, j => Bval pen s1 s2 i j = '?'
  | mv :: r, i, j =>
    Bval pen s1 s2 i j = move_char mv ∧
      Follows pen s1 s2 r (prev_cell mv i j).1 (prev_cell mv i j).2

/-- The total score of a list of aligned pairs. -/
def pairs_score (pen : Char → Char → Int) (cols : List (Char × Char)) : Int :=
  (cols.map (fun p => pen p.1 p.2)).sum

/-- The steps that the traceback takes from `(i, j)`. -/
def trail (pen : Char → Char → Int) (s1 s2 : List Char) : Nat → Nat → Nat → List Move
  | 0, _, _ => []
  | fuel + 1, i, j =>
    if Bval pen s1 s2 i j = 'u' then Move.up :: trail pen s1 s2 fuel (i - 1) j
    else if Bval pen s1 s2 i j = 'l' then Move.left :: trail pen s1 s2 fuel i (j - 1)
    else if Bval pen s1 s2 i j = 'd' then Move.diag :: trail pen s1 s2 fuel (i - 1) (j - 1)
    else []

/-! ## The result as a function of the scores -/

/-- The score and the two aligned strings of `local_alignment`, as a function of the scores. -/
def pure_align (pen : Char → Char → Int) (s1 s2 : List Char) : Int × List Char × List Char :=
  let best := scan_row (Dval pen s1 s2 s1.length) s2.length
  let cols := emit s1 s2 (trail pen s1 s2 (s1.length + s2.length + 1) s1.length best.2)
    s1.length best.2
  (best.1, (cols.map Prod.fst).reverse, (cols.map Prod.snd).reverse)

/-- The string with every gap symbol `'*'` deleted. -/
def strip_gaps (s : List Char) : List Char := s.filter (fun c => c != '*')

/-- The column `bot_j` where the traceback starts. -/
def best_col (pen : Char → Char → Int) (s1 s2 : List Char) : Nat :=
  (scan_row (Dval pen s1 s2 s1.length) s2.length).2

/-- The steps of the traceback of `local_alignment`. -/
def best_trail (pen : Char → Char → Int) (s1 s2 : List Char) : List Move :=
  trail pen s1 s2 (s1.length + s2.length + 1) s1.length (best_col pen s1 s2)

/-- The aligned pairs of `local_alignment`, last pair first. -/
def best_pairs (pen : Char → Char → Int) (s1 s2 : List Char) : List (Char × Char) :=
  emit s1 s2 (best_trail pen s1 s2) s1.length (best_col pen s1 s2)

/-! ## Alignments and the scores that are maximised -/

/-- A local alignment in the sense of the glossary: a list of aligned pairs, none of them
gap against gap, whose two gap-stripped sides are contiguous substrings of the inputs. -/
def IsLocalAlignment (s1 s2 : List Char) (cols : List (Char × Char)) : Prop :=
  strip_gaps (cols.map Prod.fst) <:+: s1 ∧ strip_gaps (cols.map Prod.snd) <:+: s2 ∧
    ∀ p ∈ cols, p ≠ ('*', '*')

/-- The scores that `local_alignment` maximises: `0`, and the total score of every walk that
ends in the bottom row at a column `1 ≤ j ≤ m`, leaves interior cells only, and starts on
row 0 or column 0. -/
def anchored_scores (pen : Char → Char → Int) (s1 s2 : List Char) : Set Int :=
  {x | x = 0 ∨ ∃ (j : Nat) (mv : List Move), 1 ≤ j ∧ j ≤ s2.length ∧ Interior mv s1.length j ∧
    ((walk_end mv s1.length j).1 = 0 ∨ (walk_end mv s1.length j).2 = 0) ∧
    x = pairs_score pen (emit s1 s2 mv s1.length j)}

/-! ## The candidate loop -/

/-- The score of `local_alignment` of the query against a candidate. -/
def score_of (pen : Char → Char → Int) (s1 : List Char) (p : Protein) : Int :=
  (pure_align pen s1 p.sequence).1

/-- What the candidate loop leaves: either no candidate beat the initial score and the
state is untouched, or the state holds the first candidate with the largest score. -/
def LoopResult (pen : Char → Char → Int) (s1 : List Char) (ps : List Protein)
    (st st2 : MatchState) : Prop :=
  ((∀ p ∈ ps, score_of pen s1 p ≤ st.best_score) ∧ st2.best_protein = st.best_protein ∧
    st2.best_score = st.best_score ∧ st2.matchString1 = st.matchString1 ∧
    st2.matchString2 = st.matchString2) ∨
  (∃ (k : Nat) (q : Protein), ps[k]? = some q ∧ st2.best_protein = q ∧
    st2.best_score = score_of pen s1 q ∧
    st2.matchString1 = (pure_align pen s1 q.sequence).2.1 ∧
    st2.matchString2 = (pure_align pen s1 q.sequence).2.2 ∧
    st.best_score < score_of pen s1 q ∧
    ∀ (k2 : Nat) (q2 : Protein), ps[k2]? = some q2 →
      score_of pen s1 q2 ≤ score_of pen s1 q ∧ (k2 < k → score_of pen s1 q2 < score_of pen s1 q))

/-! ## Registered pairs and table histories -/

/-- The pair `(c1, c2)` is a key of the table: `c1` is a key of `_penaltyMap` and `c2` is a
key of the inner map stored under it. -/
def registered (bpa : BlosumPenaltyArray) (c1 c2 : Char) : Bool :=
  match bpa.penaltyMap c1 with
  | none => false
  | some inner => (inner c2).isSome

/-- A call on a table: `set_penalty (c1, c2, penalty)` or `get_penalty (c1, c2)`. -/
inductive TableOp where
  | set (c1 c2 : Char) (penalty : Int)
  | get (c1 c2 : Char)
  deriving DecidableEq

/-- The table after one call. -/
def apply_op (bpa : BlosumPenaltyArray) : TableOp → BlosumPenaltyArray
  | TableOp.set c1 c2 penalty => set_penalty bpa c1 c2 penalty
  | TableOp.get c1 c2 => (get_penalty bpa c1 c2).2

/-- The table that a sequence of calls builds from a default-constructed one. -/
def run_ops (ops : List TableOp) : BlosumPenaltyArray :=
  ops.foldl apply_op BlosumPenaltyArray.empty

/-- The pairs that `local_alignment (s1, s2)` looks up in the table. -/
def Queried (s1 s2 : List Char) (a b : Char) : Prop :=
  (a ∈ s1 ∧ b = '*' ∧ s2 ≠ []) ∨ (a = '*' ∧ b ∈ s2 ∧ s1 ≠ []) ∨ (a ∈ s1 ∧ b ∈ s2)

/-- The three pairs that the fill loops look up at cell `(i, j)` are registered. -/
def CellPairsRegistered (s1 s2 : List Char) (t : BlosumPenaltyArray) (i j : Nat) : Prop :=
  registered t (char_at s1 (i - 1)) '*' = true ∧
  registered t '*' (char_at s2 (j - 1)) = true ∧
  registered t (char_at s1 (i - 1)) (char_at s2 (j - 1)) = true

/-! ## The matrices and the start column of one call -/

/-- The state when the fill loops of `local_alignment (s1, s2)` are done. -/
def final_state (s1 s2 : List Char) (bpa : BlosumPenaltyArray) : AlignState :=
  fill s1 s2 s1.length s2.length (init_state s1.length s2.length bpa)

/-- The column `bot_j` at which `local_alignment` starts the traceback. -/
def start_col (s1 s2 : List Char) (bpa : BlosumPenaltyArray) : Nat :=
  (best_scan (final_state s1 s2 bpa).D s1.length s2.length).2

/-- The sum `D[i-1][j] + get_penalty (string1[i-1], '*')` of cell `(i, j)`, from the
finished matrix, before it is stored in the `int u`. -/
def up_sum (s1 s2 : List Char) (bpa : BlosumPenaltyArray) (i j : Nat) : Int :=
  get2 (final_state s1 s2 bpa).D (i - 1) j 0 + (get_penalty bpa (char_at s1 (i - 1)) '*').1

/-- The sum `D[i][j-1] + get_penalty ('*', string2[j-1])` of cell `(i, j)`. -/
def left_sum (s1 s2 : List Char) (bpa : BlosumPenaltyArray) (i j : Nat) : Int :=
  get2 (final_state s1 s2 bpa).D i (j - 1) 0 + (get_penalty bpa '*' (char_at s2 (j - 1))).1

/-- The sum `D[i-1][j-1] + get_penalty (string1[i-1], string2[j-1])` of cell `(i, j)`. -/
def diag_sum (s1 s2 : List Char) (bpa : BlosumPenaltyArray) (i j : Nat) : Int :=
  get2 (final_state s1 s2 bpa).D (i - 1) (j - 1) 0 +
    (get_penalty bpa (char_at s1 (i - 1)) (char_at s2 (j - 1))).1

/-- The candidate `u` of cell `(i, j)`, from the finished matrix. -/
def up_at (s1 s2 : List Char) (bpa : BlosumPenaltyArray) (i j : Nat) : Int :=
  wrap_int (up_sum s1 s2 bpa i j)

/-- The candidate `l` of cell `(i, j)`, from the finished matrix. -/
def left_at (s1 s2 : List Char) (bpa : BlosumPenaltyArray) (i j : Nat) : Int :=
  wrap_int (left_sum s1 s2 bpa i j)

/-- The candidate `diag` of cell `(i, j)`, from the finished matrix. -/
def diag_at (s1 s2 : List Char) (bpa : BlosumPenaltyArray) (i j : Nat) : Int :=
  wrap_int (diag_sum s1 s2 bpa i j)

/-- No candidate sum that `local_alignment (s1, s2)` computes leaves the range of `int`:
at every interior cell the three sums are values of an `int`. -/
def NoOverflow (s1 s2 : List Char) (bpa : BlosumPenaltyArray) : Prop :=
  ∀ i, i < s1.length → ∀ j, j < s2.length →
    in_int_range (up_sum s1 s2 bpa (i + 1) (j + 1)) ∧
    in_int_range (left_sum s1 s2 bpa (i + 1) (j + 1)) ∧
    in_int_range (diag_sum s1 s2 bpa (i + 1) (j + 1))

instance NoOverflow.decidable (s1 s2 : List Char) (bpa : BlosumPenaltyArray) :
    Decidable (NoOverflow s1 s2 bpa) := by
  unfold NoOverflow
  infer_instance

/-- A table in which the three pairs that `local_alignment ("A", "B")` looks up score -1. -/
def minus_one_table : BlosumPenaltyArray :=
  set_penalty (set_penalty (set_penalty BlosumPenaltyArray.empty 'A' '*' (-1)) '*' 'B' (-1))
    'A' 'B' (-1)

/-- A table in which the three pairs that `local_alignment ("A", "AA")` looks up
score -2000000000. -/
def low_table : BlosumPenaltyArray :=
  set_penalty (set_penalty (set_penalty BlosumPenaltyArray.empty 'A' '*' (-2000000000))
    '*' 'A' (-2000000000)) 'A' 'A' (-2000000000)

/-- A table in which `'A'` scores 2000000000 against itself and -1 against the gap symbol,
in either order. -/
def high_table : BlosumPenaltyArray :=
  set_penalty (set_penalty (set_penalty BlosumPenaltyArray.empty 'A' '*' (-1))
    '*' 'A' (-1)) 'A' 'A' 2000000000

/-- A table for `seq1 = "A"`, `seq2 = "C"` in which both gap pairs score -1 and the pair
`('A', 'C')` scores -3. -/
def tie_table : BlosumPenaltyArray :=
  set_penalty (set_penalty (set_penalty BlosumPenaltyArray.empty 'A' '*' (-1)) '*' 'C' (-1))
    'A' 'C' (-3)

/-- The walk that the traceback takes through the matrix `B` from `(i, j)`: each step is
the one whose character is stored at the cell it leaves, and the walk ends at a cell that
holds `'?'`. -/
def StoredWalk (B : List (List Char)) : List Move → Nat → Nat → Prop
  | [], i, j => get2 B i j '?' = '?'
  | mv :: r, i, j =>
    get2 B i j '?' = move_char mv ∧ StoredWalk B r (prev_cell mv i j).1 (prev_cell mv i j).2

/-! ## Boundary-anchored paths -/

/-- The total scores of the monotone lattice paths that end at `(i, j)`, start at a cell of
row 0 or column 0 and have every later cell in the interior.  A path is given by its steps
read backwards from `(i, j)`; a step into row `a` from above scores
`get_penalty (seq1[a-1], '*')`, a step into column `b` from the left scores
`get_penalty ('*', seq2[b-1])`, and a diagonal step scores `get_penalty (seq1[a-1], seq2[b-1])`. -/
def path_scores (pen : Char → Char → Int) (s1 s2 : List Char) (i j : Nat) : Set Int :=
  {x | ∃ mv : List Move, Interior mv i j ∧
    ((walk_end mv i j).1 = 0 ∨ (walk_end mv i j).2 = 0) ∧
    x = pairs_score pen (emit s1 s2 mv i j)}

/-! # Theorems -/

/-! ## The penalty table -/

theorem penalty_value_eq (bpa : BlosumPenaltyArray) (c1 c2 : Char) :
    penalty_value bpa c1 c2 = ((inner_map bpa c1) c2).getD 0 := rfl

theorem penalty_value_get_penalty (bpa : BlosumPenaltyArray) (a b c d : Char) :
    penalty_value (get_penalty bpa a b).2 c d = penalty_value bpa c d := by
  simp only [penalty_value_eq, get_penalty, inner_map]
  by_cases hc : c = a
  · subst hc
    by_cases hd : d = b
    · subst hd; simp
    · simp [hd]
  · simp [hc]

/-! ## Matrices as lists of rows -/

theorem dims_replicate {α : Type} (r c : Nat) (v : α) :
    Dims (List.replicate r (List.replicate c v)) r c := by
  refine ⟨by simp, ?_⟩
  intro row hrow
  rw [List.eq_of_mem_replicate hrow]
  simp

theorem get2_replicate {α : Type} (r c i j : Nat) (v d : α) (hi : i < r) (hj : j < c) :
    get2 (List.replicate r (List.replicate c v)) i j d = v := by
  simp [get2, List.getD_eq_getElem?_getD, List.getElem?_replicate, hi, hj]

theorem dims_row {α : Type} {M : List (List α)} {r c : Nat} (h : Dims M r c) (i : Nat)
    (hi : i < r) : (M.getD i []).length = c := by
  apply h.2
  have hi2 : i < M.length := by rw [h.1]; exact hi
  rw [List.getD_eq_getElem?_getD, List.getElem?_eq_getElem hi2]
  simp

theorem dims_set2 {α : Type} {M : List (List α)} {r c : Nat} (h : Dims M r c) (i j : Nat)
    (v : α) : Dims (set2 M i j v) r c := by
  refine ⟨by simp [set2, h.1], ?_⟩
  intro row hrow
  simp only [set2] at hrow
  rcases List.mem_or_eq_of_mem_set hrow with hmem | heq
  · exact h.2 row hmem
  · subst heq
    by_cases hi : i < r
    · rw [List.length_set]; exact dims_row h i hi
    · have : M.length ≤ i := by rw [h.1]; omega
      have hnil : M.getD i [] = [] := by
        rw [List.getD_eq_getElem?_getD, List.getElem?_eq_none this]; rfl
      rw [List.set_eq_of_length_le this] at hrow
      exact h.2 _ hrow

theorem get2_set2 {α : Type} {M : List (List α)} {r c : Nat} (h : Dims M r c) (i j : Nat)
    (hi : i < r) (hj : j < c) (v d : α) (i2 j2 : Nat) :
    get2 (set2 M i j v) i2 j2 d = if i2 = i ∧ j2 = j then v else get2 M i2 j2 d := by
  have hi2 : i < M.length := by rw [h.1]; exact hi
  have hrow : j < (M[i]).length := by
    rw [h.2 _ (List.getElem_mem hi2)]; exact hj
  by_cases e1 : i2 = i
  · subst e1
    by_cases e2 : j2 = j
    · subst e2
      simp [get2, set2, List.getD_eq_getElem?_getD, List.getElem?_set, hi2, hrow]
    · have e2b : ¬ j = j2 := fun e => e2 e.symm
      simp [get2, set2, List.getD_eq_getElem?_getD, List.getElem?_set, hi2, e2, e2b]
  · have e1b : ¬ i = i2 := fun e => e1 e.symm
    simp [get2, set2, List.getD_eq_getElem?_getD, List.getElem?_set, e1, e1b]

/-! ## 32-bit sums -/

theorem wrap_int_in_range (x : Int) : in_int_range (wrap_int x) := by
  unfold wrap_int in_int_range
  omega

theorem wrap_int_eq_self {x : Int} (h : in_int_range x) : wrap_int x = x := by
  unfold in_int_range at h
  unfold wrap_int
  omega

theorem wrap_int_add_left (a b : Int) : wrap_int (wrap_int a + b) = wrap_int (a + b) := by
  unfold wrap_int
  omega

theorem wrap_int_zero : wrap_int 0 = 0 := by
  decide

/-! ## Equations of the closed forms -/

theorem Dval_zero_left (pen : Char → Char → Int) (s1 s2 : List Char) (j : Nat) :
    Dval pen s1 s2 0 j = 0 := rfl

theorem Dval_zero_right (pen : Char → Char → Int) (s1 s2 : List Char) (i : Nat) :
    Dval pen s1 s2 i 0 = 0 := by
  cases i <;> rfl

theorem Dval_succ (pen : Char → Char → Int) (s1 s2 : List Char) (i j : Nat) :
    Dval pen s1 s2 (i + 1) (j + 1) =
      max (max (cand_u pen s1 s2 i j) (cand_l pen s1 s2 i j)) (cand_d pen s1 s2 i j) := rfl

theorem Bval_zero_left (pen : Char → Char → Int) (s1 s2 : List Char) (j : Nat) :
    Bval pen s1 s2 0 j = '?' := rfl

theorem Bval_zero_right (pen : Char → Char → Int) (s1 s2 : List Char) (i : Nat) :
    Bval pen s1 s2 i 0 = '?' := by
  cases i <;> rfl

theorem Bval_succ (pen : Char → Char → Int) (s1 s2 : List Char) (i j : Nat) :
    Bval pen s1 s2 (i + 1) (j + 1) =
      direction (cand_u pen s1 s2 i j) (cand_l pen s1 s2 i j) (cand_d pen s1 s2 i j) := rfl

/-! ## The fill loops compute the closed forms -/

theorem foldl_range'_inv {σ : Type} (f : σ → Nat → σ) (P : Nat → σ → Prop) (len : Nat) :
    ∀ (a : Nat) (s : σ), P a s →
      (∀ k s, a ≤ k → k < a + len → P k s → P (k + 1) (f s k)) →
      P (a + len) ((List.range' a len).foldl f s) := by
  induction len with
  | zero => intro a s h0 _; simpa using h0
  | succ len ih =>
    intro a s h0 hstep
    rw [List.range'_succ, List.foldl_cons]
    have h1 : P (a + 1) (f s a) := hstep a s (le_refl a) (by omega) h0
    have := ih (a + 1) (f s a) h1 (fun k s hk hk2 hP => hstep k s (by omega) (by omega) hP)
    have e : a + 1 + len = a + (len + 1) := by omega
    rw [e] at this
    exact this

theorem filled_of_lt {i j i2 j2 : Nat} (h : i2 < i) : Filled i j i2 j2 := Or.inl h

theorem filled_of_eq {i j j2 : Nat} (h : j2 < j) : Filled i j i j2 := Or.inr ⟨rfl, h⟩

theorem fillInv_init (bpa : BlosumPenaltyArray) (s1 s2 : List Char) (n m : Nat) :
    FillInv (penalty_value bpa) s1 s2 n m 1 1 (init_state n m bpa) := by
  refine ⟨dims_replicate _ _ _, dims_replicate _ _ _, fun _ _ => rfl, ?_⟩
  intro i2 j2 hi hj
  simp only [init_state]
  rw [get2_replicate _ _ _ _ _ _ (by omega) (by omega),
    get2_replicate _ _ _ _ _ _ (by omega) (by omega)]
  by_cases h : Filled 1 1 i2 j2
  · rw [if_pos h, if_pos h]
    rcases h with h | ⟨_, h⟩
    · have : i2 = 0 := by omega
      subst this
      exact ⟨rfl, rfl⟩
    · have : j2 = 0 := by omega
      subst this
      exact ⟨(Dval_zero_right _ _ _ _).symm, (Bval_zero_right _ _ _ _).symm⟩
  · rw [if_neg h, if_neg h]
    exact ⟨rfl, rfl⟩

theorem fillInv_cell (pen : Char → Char → Int) (s1 s2 : List Char) (n m i j : Nat)
    (s : AlignState) (hi1 : 1 ≤ i) (hin : i ≤ n) (hj1 : 1 ≤ j) (hjm : j ≤ m)
    (h : FillInv pen s1 s2 n m i j s) :
    FillInv pen s1 s2 n m i (j + 1) (cell_step s1 s2 i j s) := by
  obtain ⟨hD, hB, hp, hc⟩ := h
  obtain ⟨i0, rfl⟩ : ∃ i0, i = i0 + 1 := ⟨i - 1, by omega⟩
  obtain ⟨j0, rfl⟩ : ∃ j0, j = j0 + 1 := ⟨j - 1, by omega⟩
  have hu : get2 s.D i0 (j0 + 1) 0 = Dval pen s1 s2 i0 (j0 + 1) := by
    rw [(hc i0 (j0 + 1) (by omega) hjm).1, if_pos (filled_of_lt (by omega))]
  have hl : get2 s.D (i0 + 1) j0 0 = Dval pen s1 s2 (i0 + 1) j0 := by
    rw [(hc (i0 + 1) j0 hin (by omega)).1, if_pos (filled_of_eq (by omega))]
  have hd : get2 s.D i0 j0 0 = Dval pen s1 s2 i0 j0 := by
    rw [(hc i0 j0 (by omega) (by omega)).1, if_pos (filled_of_lt (by omega))]
  have p1 : (get_penalty s.bpa (char_at s1 i0) '*').1 = pen (char_at s1 i0) '*' := hp _ _
  have p2 : (get_penalty (get_penalty s.bpa (char_at s1 i0) '*').2 '*' (char_at s2 j0)).1
      = pen '*' (char_at s2 j0) := by
    exact (penalty_value_get_penalty _ _ _ _ _).trans (hp _ _)
  have p3 : (get_penalty (get_penalty (get_penalty s.bpa (char_at s1 i0) '*').2 '*'
      (char_at s2 j0)).2 (char_at s1 i0) (char_at s2 j0)).1
      = pen (char_at s1 i0) (char_at s2 j0) := by
    exact (penalty_value_get_penalty _ _ _ _ _).trans
      ((penalty_value_get_penalty _ _ _ _ _).trans (hp _ _))
  refine ⟨dims_set2 hD _ _ _, dims_set2 hB _ _ _, ?_, ?_⟩
  · intro a b
    simp only [cell_step]
    rw [penalty_value_get_penalty, penalty_value_get_penalty, penalty_value_get_penalty]
    exact hp a b
  · intro i2 j2 hi2 hj2
    simp only [cell_step, Nat.add_sub_cancel]
    rw [get2_set2 hD _ _ (by omega) (by omega), get2_set2 hB _ _ (by omega) (by omega)]
    rw [hu, hl, hd, p1, p2, p3]
    by_cases e : i2 = i0 + 1 ∧ j2 = j0 + 1
    · obtain ⟨rfl, rfl⟩ := e
      rw [if_pos (⟨rfl, rfl⟩ : i0 + 1 = i0 + 1 ∧ j0 + 1 = j0 + 1),
        if_pos (⟨rfl, rfl⟩ : i0 + 1 = i0 + 1 ∧ j0 + 1 = j0 + 1),
        if_pos (filled_of_eq (by omega)), if_pos (filled_of_eq (by omega))]
      exact ⟨rfl, rfl⟩
    · rw [if_neg e, if_neg e]
      have hiff : Filled (i0 + 1) (j0 + 1 + 1) i2 j2 ↔ Filled (i0 + 1) (j0 + 1) i2 j2 := by
        unfold Filled
        constructor
        · rintro (h | ⟨h1, h2⟩)
          · exact Or.inl h
          · refine Or.inr ⟨h1, ?_⟩
            by_contra hc2
            exact e ⟨h1, by omega⟩
        · rintro (h | ⟨h1, h2⟩)
          · exact Or.inl h
          · exact Or.inr ⟨h1, by omega⟩
      simp only [hiff]
      exact hc i2 j2 hi2 hj2

theorem fillInv_row (pen : Char → Char → Int) (s1 s2 : List Char) (n m i : Nat)
    (s : AlignState) (hi1 : 1 ≤ i) (hin : i ≤ n) (h : FillInv pen s1 s2 n m i 1 s) :
    FillInv pen s1 s2 n m (i + 1) 1 (fill_row s1 s2 m i s) := by
  have key : FillInv pen s1 s2 n m i (1 + m) (fill_row s1 s2 m i s) :=
    foldl_range'_inv (fun s j => cell_step s1 s2 i j s)
      (fun j s => FillInv pen s1 s2 n m i j s) m 1 s h
      (fun k s hk1 hk2 hP => fillInv_cell pen s1 s2 n m i k s hi1 hin hk1 (by omega) hP)
  obtain ⟨hD, hB, hp, hc⟩ := key
  refine ⟨hD, hB, hp, ?_⟩
  intro i2 j2 hi2 hj2
  have := hc i2 j2 hi2 hj2
  by_cases hf : Filled i (1 + m) i2 j2
  · have hf2 : Filled (i + 1) 1 i2 j2 := by
      rcases hf with hf | ⟨hf, _⟩
      · exact Or.inl (by omega)
      · exact Or.inl (by omega)
    rw [if_pos hf, if_pos hf] at this
    rw [if_pos hf2, if_pos hf2]
    exact this
  · rw [if_neg hf, if_neg hf] at this
    by_cases hf2 : Filled (i + 1) 1 i2 j2
    · rw [if_pos hf2, if_pos hf2]
      rcases hf2 with hf2 | ⟨_, hf2⟩
      · exfalso
        apply hf
        by_cases e : i2 = i
        · exact Or.inr ⟨e, by omega⟩
        · exact Or.inl (by omega)
      · have : j2 = 0 := by omega
        subst this
        rw [Dval_zero_right, Bval_zero_right]
        assumption
    · rw [if_neg hf2, if_neg hf2]
      exact this

/-- The fill loops leave `Dval` in `D`, `Bval` in `B`, and a table with the same scores. -/
theorem fill_spec (bpa : BlosumPenaltyArray) (s1 s2 : List Char) (n m : Nat) :
    (∀ a b, penalty_value (fill s1 s2 n m (init_state n m bpa)).bpa a b = penalty_value bpa a b) ∧
    ∀ i j, i ≤ n → j ≤ m →
      get2 (fill s1 s2 n m (init_state n m bpa)).D i j 0 = Dval (penalty_value bpa) s1 s2 i j ∧
      get2 (fill s1 s2 n m (init_state n m bpa)).B i j '?' = Bval (penalty_value bpa) s1 s2 i j := by
  have key : FillInv (penalty_value bpa) s1 s2 n m (1 + n) 1
      (fill s1 s2 n m (init_state n m bpa)) :=
    foldl_range'_inv (fun s i => fill_row s1 s2 m i s)
      (fun i s => FillInv (penalty_value bpa) s1 s2 n m i 1 s) n 1 _
      (fillInv_init bpa s1 s2 n m)
      (fun k s hk1 hk2 hP => fillInv_row _ s1 s2 n m k s hk1 (by omega) hP)
  obtain ⟨_, _, hp, hc⟩ := key
  refine ⟨hp, ?_⟩
  intro i j hi hj
  have := hc i j hi hj
  rw [if_pos (filled_of_lt (by omega)), if_pos (filled_of_lt (by omega))] at this
  exact this

/-! ## The scan of the bottom row -/

theorem best_scan_eq (D : List (List Int)) (row : Nat → Int) (bot_i m : Nat)
    (h : ∀ j, 1 ≤ j → j ≤ m → get2 D bot_i j 0 = row j) :
    best_scan D bot_i m = scan_row row m := by
  unfold best_scan scan_row
  apply List.foldl_ext
  intro acc j hj
  rw [List.mem_range'_1] at hj
  simp only [best_step]
  rw [h j hj.1 (by omega)]

theorem scan_row_spec (row : Nat → Int) (m : Nat) : ScanInv row (1 + m) (scan_row row m) := by
  apply foldl_range'_inv (fun acc j => if row j > acc.1 then (row j, j) else acc)
    (fun k acc => ScanInv row k acc) m 1 (0, 0)
  · refine ⟨le_refl _, by simp, fun _ => rfl, fun h => absurd h (by simp), ?_, ?_⟩
    · intro j h1 h2; omega
    · intro j h1 h2; simp at h2
  · intro k acc hk1 _ hP
    obtain ⟨h0, h1, h2, h3, h4, h5⟩ := hP
    by_cases hgt : row k > acc.1
    · simp only [if_pos hgt]
      refine ⟨by omega, by simp, fun h => by simp at h; omega, fun _ => ⟨rfl, by simp; omega⟩,
        ?_, ?_⟩
      · intro j hj1 hj2
        simp only
        by_cases e : j = k
        · subst e; exact le_refl _
        · have := h4 j hj1 (by omega); omega
      · intro j hj1 hj2
        simp only at hj2 ⊢
        have := h4 j hj1 hj2; omega
    · simp only [if_neg hgt]
      refine ⟨h0, by omega, h2, h3, ?_, h5⟩
      intro j hj1 hj2
      by_cases e : j = k
      · subst e; omega
      · exact h4 j hj1 (by omega)

/-! ## The traceback -/

theorem direction_cases (u l d : Int) :
    (direction u l d = 'u' ∧ max (max u l) d = u) ∨
    (direction u l d = 'l' ∧ max (max u l) d = l) ∨
    (direction u l d = 'd' ∧ max (max u l) d = d) := by
  unfold direction
  by_cases h1 : l > u
  · by_cases h2 : l > d
    · right; left
      rw [if_pos h1, if_pos h2]
      exact ⟨rfl, by rw [max_eq_right (le_of_lt h1), max_eq_left (le_of_lt h2)]⟩
    · right; right
      rw [if_pos h1, if_neg h2]
      exact ⟨rfl, by rw [max_eq_right (le_of_lt h1), max_eq_right (not_lt.mp h2)]⟩
  · by_cases h2 : u > d
    · left
      rw [if_neg h1, if_pos h2]
      exact ⟨rfl, by rw [max_eq_left (not_lt.mp h1), max_eq_left (le_of_lt h2)]⟩
    · right; right
      rw [if_neg h1, if_neg h2]
      exact ⟨rfl, by rw [max_eq_left (not_lt.mp h1), max_eq_right (not_lt.mp h2)]⟩

theorem Bval_cases (pen : Char → Char → Int) (s1 s2 : List Char) (i j : Nat) :
    ((i = 0 ∨ j = 0) ∧ Bval pen s1 s2 i j = '?') ∨
    (1 ≤ i ∧ 1 ≤ j ∧ ∃ mv, Bval pen s1 s2 i j = move_char mv ∧
      Dval pen s1 s2 i j = wrap_int (Dval pen s1 s2 (prev_cell mv i j).1 (prev_cell mv i j).2 +
        pen (emit_pair s1 s2 mv i j).1 (emit_pair s1 s2 mv i j).2)) := by
  cases i with
  | zero => left; exact ⟨Or.inl rfl, rfl⟩
  | succ i =>
    cases j with
    | zero => left; exact ⟨Or.inr rfl, rfl⟩
    | succ j =>
      right
      refine ⟨by omega, by omega, ?_⟩
      rw [Bval_succ, Dval_succ]
      rcases direction_cases (cand_u pen s1 s2 i j) (cand_l pen s1 s2 i j)
        (cand_d pen s1 s2 i j) with ⟨h1, h2⟩ | ⟨h1, h2⟩ | ⟨h1, h2⟩
      · exact ⟨Move.up, h1, h2⟩
      · exact ⟨Move.left, h1, h2⟩
      · exact ⟨Move.diag, h1, h2⟩

theorem trail_follows (pen : Char → Char → Int) (s1 s2 : List Char) :
    ∀ fuel i j, i + j < fuel → Follows pen s1 s2 (trail pen s1 s2 fuel i j) i j := by
  intro fuel
  induction fuel with
  | zero => intro i j h; omega
  | succ fuel ih =>
    intro i j h
    rcases Bval_cases pen s1 s2 i j with ⟨_, hq⟩ | ⟨hi, hj, mv, hmv, _⟩
    · simp [trail, hq, Follows]
    · cases mv with
      | up =>
        simp only [move_char] at hmv
        simp only [trail, hmv, if_true]
        exact ⟨hmv, ih _ _ (by omega)⟩
      | left =>
        simp only [move_char] at hmv
        have e1 : ¬ ('l' = 'u') := by decide
        simp only [trail, hmv, if_true, e1, if_false]
        exact ⟨hmv, ih _ _ (by omega)⟩
      | diag =>
        simp only [move_char] at hmv
        have e1 : ¬ ('d' = 'u') := by decide
        have e2 : ¬ ('d' = 'l') := by decide
        simp only [trail, hmv, if_true, e1, e2, if_false]
        exact ⟨hmv, ih _ _ (by omega)⟩

theorem traceback_eq (pen : Char → Char → Int) (s1 s2 : List Char) (B : List (List Char))
    (n m : Nat) (hB : ∀ i j, i ≤ n → j ≤ m → get2 B i j '?' = Bval pen s1 s2 i j) :
    ∀ fuel i j a1 a2, i ≤ n → j ≤ m → i + j < fuel →
      traceback s1 s2 B fuel i j a1 a2 =
        some (a1 ++ (emit s1 s2 (trail pen s1 s2 fuel i j) i j).map Prod.fst,
              a2 ++ (emit s1 s2 (trail pen s1 s2 fuel i j) i j).map Prod.snd) := by
  intro fuel
  induction fuel with
  | zero => intro i j _ _ _ _ h; omega
  | succ fuel ih =>
    intro i j a1 a2 hi hj h
    have e0 : ¬ ('?' = 'u') := by decide
    have e0l : ¬ ('?' = 'l') := by decide
    have e0d : ¬ ('?' = 'd') := by decide
    have eu : ¬ ('u' = '?') := by decide
    have el : ¬ ('l' = '?') := by decide
    have elu : ¬ ('l' = 'u') := by decide
    have ed : ¬ ('d' = '?') := by decide
    have edu : ¬ ('d' = 'u') := by decide
    have edl : ¬ ('d' = 'l') := by decide
    rcases Bval_cases pen s1 s2 i j with ⟨_, hq⟩ | ⟨hi1, hj1, mv, hmv, _⟩
    · simp only [traceback, trail, hB i j hi hj, hq, if_true, e0, e0l, e0d, if_false, emit,
        List.map_nil, List.append_nil]
    · cases mv with
      | up =>
        simp only [move_char] at hmv
        simp only [traceback, trail, hB i j hi hj, hmv, if_true, eu, if_false]
        rw [ih (i - 1) j _ _ (by omega) hj (by omega)]
        simp [emit, emit_pair, prev_cell]
      | left =>
        simp only [move_char] at hmv
        simp only [traceback, trail, hB i j hi hj, hmv, if_true, el, elu, if_false]
        rw [ih i (j - 1) _ _ hi (by omega) (by omega)]
        simp [emit, emit_pair, prev_cell]
      | diag =>
        simp only [move_char] at hmv
        simp only [traceback, trail, hB i j hi hj, hmv, if_true, ed, edu, edl, if_false]
        rw [ih (i - 1) (j - 1) _ _ (by omega) (by omega) (by omega)]
        simp [emit, emit_pair, prev_cell]

/-- `local_alignment` always returns, and its result is `pure_align` of the table's scores. -/
theorem local_alignment_eq (s1 s2 : List Char) (bpa : BlosumPenaltyArray) :
    local_alignment s1 s2 bpa =
      some ⟨(pure_align (penalty_value bpa) s1 s2).1, (pure_align (penalty_value bpa) s1 s2).2.1,
        (pure_align (penalty_value bpa) s1 s2).2.2,
        (fill s1 s2 s1.length s2.length (init_state s1.length s2.length bpa)).bpa⟩ := by
  have hfill := (fill_spec bpa s1 s2 s1.length s2.length).2
  have hscan : best_scan (fill s1 s2 s1.length s2.length
      (init_state s1.length s2.length bpa)).D s1.length s2.length =
      scan_row (Dval (penalty_value bpa) s1 s2 s1.length) s2.length :=
    best_scan_eq _ _ _ _ (fun j _ hj => (hfill s1.length j (le_refl _) hj).1)
  have hbj : (scan_row (Dval (penalty_value bpa) s1 s2 s1.length) s2.length).2 ≤ s2.length := by
    have := (scan_row_spec (Dval (penalty_value bpa) s1 s2 s1.length) s2.length).2.1
    omega
  have htb := traceback_eq (penalty_value bpa) s1 s2
    (fill s1 s2 s1.length s2.length (init_state s1.length s2.length bpa)).B
    s1.length s2.length (fun i j hi hj => (hfill i j hi hj).2)
    (s1.length + s2.length + 1) s1.length
    (scan_row (Dval (penalty_value bpa) s1 s2 s1.length) s2.length).2 [] []
    (le_refl _) hbj (by omega)
  simp only [local_alignment, hscan, htb, pure_align, List.nil_append]

theorem fill_penalty_value (s1 s2 : List Char) (bpa : BlosumPenaltyArray) :
    penalty_value (fill s1 s2 s1.length s2.length (init_state s1.length s2.length bpa)).bpa
      = penalty_value bpa := by
  funext a b
  exact (fill_spec bpa s1 s2 s1.length s2.length).1 a b

/-! ## Facts about walks -/

theorem move_char_ne (mv : Move) : move_char mv ≠ '?' := by
  cases mv <;> decide

theorem move_char_inj {a b : Move} (h : move_char a = move_char b) : a = b := by
  cases a <;> cases b <;> first | rfl | (exact absurd h (by decide))

theorem trail_nil_of_boundary (pen : Char → Char → Int) (s1 s2 : List Char) (fuel i j : Nat)
    (h : Bval pen s1 s2 i j = '?') : trail pen s1 s2 fuel i j = [] := by
  cases fuel with
  | zero => rfl
  | succ fuel => simp [trail, h]

theorem follows_interior (pen : Char → Char → Int) (s1 s2 : List Char) :
    ∀ (mv : List Move) (i j : Nat), Follows pen s1 s2 mv i j →
      Interior mv i j ∧ ((walk_end mv i j).1 = 0 ∨ (walk_end mv i j).2 = 0) := by
  intro mv
  induction mv with
  | nil =>
    intro i j h
    refine ⟨trivial, ?_⟩
    rcases Bval_cases pen s1 s2 i j with ⟨hb, _⟩ | ⟨_, _, mv, hmv, _⟩
    · exact hb
    · exact absurd (hmv.symm.trans h) (move_char_ne mv)
  | cons a r ih =>
    intro i j h
    obtain ⟨h1, h2⟩ := h
    rcases Bval_cases pen s1 s2 i j with ⟨_, hq⟩ | ⟨hi, hj, _⟩
    · exact absurd (h1.symm.trans hq) (move_char_ne a)
    · exact ⟨⟨hi, hj, (ih _ _ h2).1⟩, (ih _ _ h2).2⟩

/-- Along the stored walk the cell value is the total score of the emitted pairs, as an
`int`. -/
theorem follows_score (pen : Char → Char → Int) (s1 s2 : List Char) :
    ∀ (mv : List Move) (i j : Nat), Follows pen s1 s2 mv i j →
      Dval pen s1 s2 i j = wrap_int (pairs_score pen (emit s1 s2 mv i j)) := by
  intro mv
  induction mv with
  | nil =>
    intro i j h
    rcases Bval_cases pen s1 s2 i j with ⟨hb, _⟩ | ⟨_, _, mv, hmv, _⟩
    · rw [show pairs_score pen (emit s1 s2 [] i j) = 0 from rfl, wrap_int_zero]
      rcases hb with rfl | rfl
      · rfl
      · exact Dval_zero_right _ _ _ _
    · exact absurd (hmv.symm.trans h) (move_char_ne mv)
  | cons a r ih =>
    intro i j h
    obtain ⟨h1, h2⟩ := h
    rcases Bval_cases pen s1 s2 i j with ⟨_, hq⟩ | ⟨_, _, mv, hmv, hD⟩
    · exact absurd (h1.symm.trans hq) (move_char_ne a)
    · have e : mv = a := move_char_inj (hmv.symm.trans h1)
      subst e
      rw [hD, ih _ _ h2, wrap_int_add_left]
      simp only [pairs_score, emit, List.map_cons, List.sum_cons]
      congr 1
      ring

theorem step_in_range (pen : Char → Char → Int) (s1 s2 : List Char) (n m : Nat)
    (h : CellsInRange pen s1 s2 n m) (a : Move) (i j : Nat) (hi : i < n) (hj : j < m) :
    in_int_range (Dval pen s1 s2 (prev_cell a (i + 1) (j + 1)).1 (prev_cell a (i + 1) (j + 1)).2
      + pen (emit_pair s1 s2 a (i + 1) (j + 1)).1 (emit_pair s1 s2 a (i + 1) (j + 1)).2) := by
  cases a with
  | up => exact (h i j hi hj).1
  | left => exact (h i j hi hj).2.1
  | diag => exact (h i j hi hj).2.2

theorem prev_cell_le (a : Move) (i j n m : Nat) (hi : i ≤ n) (hj : j ≤ m) :
    (prev_cell a i j).1 ≤ n ∧ (prev_cell a i j).2 ≤ m := by
  cases a <;> simp only [prev_cell] <;> omega

/-- When no candidate sum leaves the range of `int`, each interior cell is the greatest of
the three sums and its tag is chosen from them. -/
theorem Dval_succ_exact (pen : Char → Char → Int) (s1 s2 : List Char) (n m : Nat)
    (h : CellsInRange pen s1 s2 n m) (i j : Nat) (hi : i < n) (hj : j < m) :
    Dval pen s1 s2 (i + 1) (j + 1) =
      max (max (raw_u pen s1 s2 i j) (raw_l pen s1 s2 i j)) (raw_d pen s1 s2 i j) ∧
    Bval pen s1 s2 (i + 1) (j + 1) =
      direction (raw_u pen s1 s2 i j) (raw_l pen s1 s2 i j) (raw_d pen s1 s2 i j) := by
  obtain ⟨hu, hl, hd⟩ := h i j hi hj
  rw [Dval_succ, Bval_succ]
  unfold cand_u cand_l cand_d
  rw [wrap_int_eq_self hu, wrap_int_eq_self hl, wrap_int_eq_self hd]
  exact ⟨rfl, rfl⟩

/-- When no candidate sum leaves the range of `int`, the cell value along the stored walk
is the total score of the emitted pairs. -/
theorem follows_score_exact (pen : Char → Char → Int) (s1 s2 : List Char) (n m : Nat)
    (h : CellsInRange pen s1 s2 n m) :
    ∀ (mv : List Move) (i j : Nat), i ≤ n → j ≤ m → Follows pen s1 s2 mv i j →
      Dval pen s1 s2 i j = pairs_score pen (emit s1 s2 mv i j) := by
  intro mv
  induction mv with
  | nil =>
    intro i j _ _ hf
    rw [follows_score pen s1 s2 [] i j hf]
    exact wrap_int_zero
  | cons a r ih =>
    intro i j hi hj hf
    obtain ⟨h1, h2⟩ := hf
    rcases Bval_cases pen s1 s2 i j with ⟨_, hq⟩ | ⟨hi1, hj1, mv, hmv, hD⟩
    · exact absurd (h1.symm.trans hq) (move_char_ne a)
    · have e : mv = a := move_char_inj (hmv.symm.trans h1)
      subst e
      obtain ⟨i0, rfl⟩ : ∃ i0, i = i0 + 1 := ⟨i - 1, by omega⟩
      obtain ⟨j0, rfl⟩ : ∃ j0, j = j0 + 1 := ⟨j - 1, by omega⟩
      have hp := prev_cell_le mv (i0 + 1) (j0 + 1) n m hi hj
      rw [hD, wrap_int_eq_self (step_in_range pen s1 s2 n m h mv i0 j0 (by omega) (by omega)),
        ih _ _ hp.1 hp.2 h2]
      simp only [pairs_score, emit, List.map_cons, List.sum_cons]
      ring

/-- When no candidate sum leaves the range of `int`, no interior walk into `(i, j)` scores
more than the cell value allows. -/
theorem interior_le (pen : Char → Char → Int) (s1 s2 : List Char) (n m : Nat)
    (h : CellsInRange pen s1 s2 n m) :
    ∀ (mv : List Move) (i j : Nat), i ≤ n → j ≤ m → Interior mv i j →
      Dval pen s1 s2 (walk_end mv i j).1 (walk_end mv i j).2 +
        pairs_score pen (emit s1 s2 mv i j) ≤ Dval pen s1 s2 i j := by
  intro mv
  induction mv with
  | nil => intro i j _ _ _; simp [walk_end, emit, pairs_score]
  | cons a r ih =>
    intro i j hin hjm hint
    obtain ⟨hi, hj, hr⟩ := hint
    obtain ⟨i0, rfl⟩ : ∃ i0, i = i0 + 1 := ⟨i - 1, by omega⟩
    obtain ⟨j0, rfl⟩ : ∃ j0, j = j0 + 1 := ⟨j - 1, by omega⟩
    have hstep : Dval pen s1 s2 (prev_cell a (i0 + 1) (j0 + 1)).1 (prev_cell a (i0 + 1) (j0 + 1)).2
        + pen (emit_pair s1 s2 a (i0 + 1) (j0 + 1)).1 (emit_pair s1 s2 a (i0 + 1) (j0 + 1)).2
        ≤ Dval pen s1 s2 (i0 + 1) (j0 + 1) := by
      rw [(Dval_succ_exact pen s1 s2 n m h i0 j0 (by omega) (by omega)).1]
      cases a with
      | up => exact le_trans (le_max_left _ _) (le_max_left _ _)
      | left => exact le_trans (le_max_right _ _) (le_max_left _ _)
      | diag => exact le_max_right _ _
    have hp := prev_cell_le a (i0 + 1) (j0 + 1) n m hin hjm
    have := ih _ _ hp.1 hp.2 hr
    simp only [walk_end, emit, pairs_score, List.map_cons, List.sum_cons] at this ⊢
    omega

theorem walk_end_le : ∀ (mv : List Move) (i j : Nat),
    (walk_end mv i j).1 ≤ i ∧ (walk_end mv i j).2 ≤ j := by
  intro mv
  induction mv with
  | nil => intro i j; exact ⟨le_refl _, le_refl _⟩
  | cons a r ih =>
    intro i j
    have := ih (prev_cell a i j).1 (prev_cell a i j).2
    simp only [walk_end]
    cases a <;> simp only [prev_cell] at this ⊢ <;> omega

theorem zipWith_fst_snd (f : Char → Char → Int) (cols : List (Char × Char)) :
    List.zipWith f (cols.map Prod.fst) (cols.map Prod.snd) = cols.map (fun p => f p.1 p.2) := by
  induction cols with
  | nil => rfl
  | cons a r ih => simp [ih]

theorem zipWith_reverse_sum (f : Char → Char → Int) (cols : List (Char × Char)) :
    (List.zipWith f (cols.map Prod.fst).reverse (cols.map Prod.snd).reverse).sum
      = pairs_score f cols := by
  rw [← List.map_reverse, ← List.map_reverse, zipWith_fst_snd, List.map_reverse,
    List.sum_reverse]
  rfl

/-! ## Gap-stripped forms -/

theorem strip_gaps_append (a b : List Char) :
    strip_gaps (a ++ b) = strip_gaps a ++ strip_gaps b := by
  simp [strip_gaps]

theorem char_at_eq (s : List Char) (k : Nat) (h : k < s.length) : char_at s k = s[k] := by
  simp [char_at, List.getD_eq_getElem?_getD, List.getElem?_eq_getElem h]

theorem char_at_mem (s : List Char) (k : Nat) (h : k < s.length) : char_at s k ∈ s := by
  rw [char_at_eq s k h]
  exact List.getElem_mem h

theorem take_succ_char_at (s : List Char) (k : Nat) (h : k < s.length) :
    s.take (k + 1) = s.take k ++ [char_at s k] := by
  rw [List.take_succ, char_at_eq s k h, List.getElem?_eq_getElem h]
  rfl

theorem block_snoc (s : List Char) (e k : Nat) (he : e ≤ k) (h : k < s.length) :
    (s.take (k + 1)).drop e = (s.take k).drop e ++ [char_at s k] := by
  rw [take_succ_char_at s k h, List.drop_append_of_le_length]
  rw [List.length_take]
  omega

theorem strip_gaps_single (s : List Char) (k : Nat) (h : k < s.length) (hs : '*' ∉ s) :
    strip_gaps [char_at s k] = [char_at s k] := by
  have hne : char_at s k ≠ '*' := fun e => hs (e ▸ char_at_mem s k h)
  simp [strip_gaps, hne]

theorem strip_gaps_star : strip_gaps ['*'] = [] := by
  simp [strip_gaps]

/-- The first aligned string of a walk, gap-stripped, is the block of `s1` that it covers. -/
theorem strip_fst (s1 s2 : List Char) (hs : '*' ∉ s1) :
    ∀ (mv : List Move) (i j : Nat), Interior mv i j → i ≤ s1.length →
      strip_gaps ((emit s1 s2 mv i j).map Prod.fst).reverse
        = (s1.take i).drop (walk_end mv i j).1 := by
  intro mv
  induction mv with
  | nil =>
    intro i j _ _
    simp [emit, walk_end, strip_gaps]
  | cons a r ih =>
    intro i j h hi
    obtain ⟨hi1, hj1, hr⟩ := h
    obtain ⟨i0, rfl⟩ : ∃ i0, i = i0 + 1 := ⟨i - 1, by omega⟩
    obtain ⟨j0, rfl⟩ : ∃ j0, j = j0 + 1 := ⟨j - 1, by omega⟩
    simp only [emit, walk_end, List.map_cons, List.reverse_cons, strip_gaps_append]
    cases a with
    | up =>
      simp only [prev_cell, emit_pair, Nat.add_sub_cancel] at hr ⊢
      rw [ih _ _ hr (by omega), strip_gaps_single s1 i0 (by omega) hs,
        block_snoc s1 _ i0 (walk_end_le r i0 (j0 + 1)).1 (by omega)]
    | left =>
      simp only [prev_cell, emit_pair, Nat.add_sub_cancel] at hr ⊢
      rw [ih _ _ hr hi, strip_gaps_star, List.append_nil]
    | diag =>
      simp only [prev_cell, emit_pair, Nat.add_sub_cancel] at hr ⊢
      rw [ih _ _ hr (by omega), strip_gaps_single s1 i0 (by omega) hs,
        block_snoc s1 _ i0 (walk_end_le r i0 j0).1 (by omega)]

/-- The second aligned string of a walk, gap-stripped, is the block of `s2` that it covers. -/
theorem strip_snd (s1 s2 : List Char) (hs : '*' ∉ s2) :
    ∀ (mv : List Move) (i j : Nat), Interior mv i j → j ≤ s2.length →
      strip_gaps ((emit s1 s2 mv i j).map Prod.snd).reverse
        = (s2.take j).drop (walk_end mv i j).2 := by
  intro mv
  induction mv with
  | nil =>
    intro i j _ _
    simp [emit, walk_end, strip_gaps]
  | cons a r ih =>
    intro i j h hj
    obtain ⟨hi1, hj1, hr⟩ := h
    obtain ⟨i0, rfl⟩ : ∃ i0, i = i0 + 1 := ⟨i - 1, by omega⟩
    obtain ⟨j0, rfl⟩ : ∃ j0, j = j0 + 1 := ⟨j - 1, by omega⟩
    simp only [emit, walk_end, List.map_cons, List.reverse_cons, strip_gaps_append]
    cases a with
    | up =>
      simp only [prev_cell, emit_pair, Nat.add_sub_cancel] at hr ⊢
      rw [ih _ _ hr hj, strip_gaps_star, List.append_nil]
    | left =>
      simp only [prev_cell, emit_pair, Nat.add_sub_cancel] at hr ⊢
      rw [ih _ _ hr (by omega), strip_gaps_single s2 j0 (by omega) hs,
        block_snoc s2 _ j0 (walk_end_le r (i0 + 1) j0).2 (by omega)]
    | diag =>
      simp only [prev_cell, emit_pair, Nat.add_sub_cancel] at hr ⊢
      rw [ih _ _ hr (by omega), strip_gaps_single s2 j0 (by omega) hs,
        block_snoc s2 _ j0 (walk_end_le r i0 j0).2 (by omega)]

theorem block_is_substring (s : List Char) (e k : Nat) : (s.take k).drop e <:+: s := by
  have h1 : (s.take k).drop e <:+ s.take k := List.drop_suffix e (s.take k)
  have h2 : s.take k <+: s := List.take_prefix k s
  exact List.IsInfix.trans h1.isInfix h2.isInfix

/-! ## The column and the walk chosen by `local_alignment` -/

theorem pure_align_pairs (pen : Char → Char → Int) (s1 s2 : List Char) :
    pure_align pen s1 s2 =
      ((scan_row (Dval pen s1 s2 s1.length) s2.length).1,
        ((best_pairs pen s1 s2).map Prod.fst).reverse,
        ((best_pairs pen s1 s2).map Prod.snd).reverse) := rfl

theorem best_col_le (pen : Char → Char → Int) (s1 s2 : List Char) :
    best_col pen s1 s2 ≤ s2.length := by
  have := (scan_row_spec (Dval pen s1 s2 s1.length) s2.length).2.1
  unfold best_col
  omega

theorem best_trail_follows (pen : Char → Char → Int) (s1 s2 : List Char) :
    Follows pen s1 s2 (best_trail pen s1 s2) s1.length (best_col pen s1 s2) :=
  trail_follows pen s1 s2 _ _ _ (by have := best_col_le pen s1 s2; omega)

/-- The returned score is the value of the cell where the traceback starts. -/
theorem score_eq_Dval (pen : Char → Char → Int) (s1 s2 : List Char) :
    (pure_align pen s1 s2).1 = Dval pen s1 s2 s1.length (best_col pen s1 s2) := by
  obtain ⟨_, _, h2, h3, _, _⟩ := scan_row_spec (Dval pen s1 s2 s1.length) s2.length
  rw [pure_align_pairs]
  simp only [best_col]
  by_cases h : (scan_row (Dval pen s1 s2 s1.length) s2.length).2 = 0
  · rw [h2 h, h, Dval_zero_right]
  · exact (h3 (by omega)).1

theorem score_eq_pairs_wrap (pen : Char → Char → Int) (s1 s2 : List Char) :
    (pure_align pen s1 s2).1 = wrap_int (pairs_score pen (best_pairs pen s1 s2)) := by
  rw [score_eq_Dval]
  exact follows_score pen s1 s2 _ _ _ (best_trail_follows pen s1 s2)

theorem score_eq_pairs (pen : Char → Char → Int) (s1 s2 : List Char)
    (h : CellsInRange pen s1 s2 s1.length s2.length) :
    (pure_align pen s1 s2).1 = pairs_score pen (best_pairs pen s1 s2) := by
  rw [score_eq_Dval]
  exact follows_score_exact pen s1 s2 _ _ h _ _ _ (le_refl _) (best_col_le pen s1 s2)
    (best_trail_follows pen s1 s2)

/-! ## The finished matrices -/

theorem final_D (s1 s2 : List Char) (bpa : BlosumPenaltyArray) (i j : Nat)
    (hi : i ≤ s1.length) (hj : j ≤ s2.length) :
    get2 (final_state s1 s2 bpa).D i j 0 = Dval (penalty_value bpa) s1 s2 i j :=
  ((fill_spec bpa s1 s2 s1.length s2.length).2 i j hi hj).1

theorem final_B (s1 s2 : List Char) (bpa : BlosumPenaltyArray) (i j : Nat)
    (hi : i ≤ s1.length) (hj : j ≤ s2.length) :
    get2 (final_state s1 s2 bpa).B i j '?' = Bval (penalty_value bpa) s1 s2 i j :=
  ((fill_spec bpa s1 s2 s1.length s2.length).2 i j hi hj).2

theorem final_scan (s1 s2 : List Char) (bpa : BlosumPenaltyArray) :
    best_scan (final_state s1 s2 bpa).D s1.length s2.length =
      scan_row (Dval (penalty_value bpa) s1 s2 s1.length) s2.length :=
  best_scan_eq _ _ _ _ (fun j _ hj => final_D s1 s2 bpa s1.length j (le_refl _) hj)

theorem start_col_eq (s1 s2 : List Char) (bpa : BlosumPenaltyArray) :
    start_col s1 s2 bpa = best_col (penalty_value bpa) s1 s2 := by
  simp only [start_col, final_scan, best_col]

theorem sums_eq (s1 s2 : List Char) (bpa : BlosumPenaltyArray) (i j : Nat)
    (hi : i + 1 ≤ s1.length) (hj : j + 1 ≤ s2.length) :
    up_sum s1 s2 bpa (i + 1) (j + 1) = raw_u (penalty_value bpa) s1 s2 i j ∧
    left_sum s1 s2 bpa (i + 1) (j + 1) = raw_l (penalty_value bpa) s1 s2 i j ∧
    diag_sum s1 s2 bpa (i + 1) (j + 1) = raw_d (penalty_value bpa) s1 s2 i j := by
  simp only [up_sum, left_sum, diag_sum, raw_u, raw_l, raw_d, Nat.add_sub_cancel]
  rw [final_D s1 s2 bpa i (j + 1) (by omega) hj, final_D s1 s2 bpa (i + 1) j hi (by omega),
    final_D s1 s2 bpa i j (by omega) (by omega)]
  exact ⟨rfl, rfl, rfl⟩

theorem cands_eq (s1 s2 : List Char) (bpa : BlosumPenaltyArray) (i j : Nat)
    (hi : i + 1 ≤ s1.length) (hj : j + 1 ≤ s2.length) :
    up_at s1 s2 bpa (i + 1) (j + 1) = cand_u (penalty_value bpa) s1 s2 i j ∧
    left_at s1 s2 bpa (i + 1) (j + 1) = cand_l (penalty_value bpa) s1 s2 i j ∧
    diag_at s1 s2 bpa (i + 1) (j + 1) = cand_d (penalty_value bpa) s1 s2 i j := by
  obtain ⟨e1, e2, e3⟩ := sums_eq s1 s2 bpa i j hi hj
  refine ⟨?_, ?_, ?_⟩ <;>
    simp only [up_at, left_at, diag_at, cand_u, cand_l, cand_d, e1, e2, e3]

/-- When the sums of a call are in the range of `int`, so are those of the closed form. -/
theorem noOverflow_cells (s1 s2 : List Char) (bpa : BlosumPenaltyArray)
    (h : NoOverflow s1 s2 bpa) :
    CellsInRange (penalty_value bpa) s1 s2 s1.length s2.length := by
  intro i j hi hj
  obtain ⟨e1, e2, e3⟩ := sums_eq s1 s2 bpa i j (by omega) (by omega)
  have := h i hi j hj
  rw [e1, e2, e3] at this
  exact this

/-! ## Claims about `local_alignment` -/

/-- C1, refuted as stated: for `seq1 = "A"`, `seq2 = "AA"` and a table in which the three
pairs looked up score -2000000000, the sum `D[1][1] + get_penalty ('*', 'A')` leaves the
range of `int`; the returned score is 294967296 with the aligned strings `"A*"` and `"AA"`,
whose pairs total -4000000000. -/
theorem local_alignment_score_overflow :
    ∃ r, local_alignment ['A'] ['A', 'A'] low_table = some r ∧
      r.score = 294967296 ∧ r.matchString1 = ['A', '*'] ∧ r.matchString2 = ['A', 'A'] ∧
      (List.zipWith (penalty_value low_table) r.matchString1 r.matchString2).sum
        = -4000000000 := by
  have h : pure_align (penalty_value low_table) ['A'] ['A', 'A'] =
      (294967296, ['A', '*'], ['A', 'A']) := by decide
  refine ⟨_, local_alignment_eq _ _ _, ?_⟩
  rw [h]
  exact ⟨rfl, rfl, rfl, by decide⟩

/-- C1, amended: `local_alignment` returns, and the returned score is the sum of
`get_penalty (matchString1[k], matchString2[k])` over the positions `k` of the returned
aligned strings, reduced to the range of a 32-bit `int` (read in the table before the call
or in the table after it); it is that sum itself whenever the sum is in the range of `int`,
and whenever no candidate sum of the call leaves that range. -/
theorem local_alignment_score_is_pair_sum (s1 s2 : List Char) (bpa : BlosumPenaltyArray) :
    ∃ r, local_alignment s1 s2 bpa = some r ∧
      r.score =
        wrap_int (List.zipWith (penalty_value bpa) r.matchString1 r.matchString2).sum ∧
      r.score =
        wrap_int (List.zipWith (penalty_value r.bpa) r.matchString1 r.matchString2).sum ∧
      (in_int_range (List.zipWith (penalty_value bpa) r.matchString1 r.matchString2).sum →
        r.score = (List.zipWith (penalty_value bpa) r.matchString1 r.matchString2).sum) ∧
      (NoOverflow s1 s2 bpa →
        r.score = (List.zipWith (penalty_value bpa) r.matchString1 r.matchString2).sum) := by
  refine ⟨_, local_alignment_eq s1 s2 bpa, ?_, ?_, ?_, ?_⟩
  · simp only [pure_align_pairs, zipWith_reverse_sum]
    exact score_eq_pairs_wrap _ s1 s2
  · simp only [fill_penalty_value, pure_align_pairs, zipWith_reverse_sum]
    exact score_eq_pairs_wrap _ s1 s2
  · simp only [pure_align_pairs, zipWith_reverse_sum]
    intro hr
    have := score_eq_pairs_wrap (penalty_value bpa) s1 s2
    rw [wrap_int_eq_self hr] at this
    exact this
  · simp only [pure_align_pairs, zipWith_reverse_sum]
    intro hno
    exact score_eq_pairs _ s1 s2 (noOverflow_cells s1 s2 bpa hno)

/-- C1 amended, at `seq1 = "ACCA"`, `seq2 = "ACA"` with the match/mismatch table, where no
sum leaves the range of `int`. -/
theorem local_alignment_score_is_pair_sum_witness :
    NoOverflow ['A', 'C', 'C', 'A'] ['A', 'C', 'A'] simple_table ∧
    ∃ r, local_alignment ['A', 'C', 'C', 'A'] ['A', 'C', 'A'] simple_table = some r ∧
      r.score = (List.zipWith (penalty_value simple_table) r.matchString1
        r.matchString2).sum :=
  have hno : NoOverflow ['A', 'C', 'C', 'A'] ['A', 'C', 'A'] simple_table := by decide
  ⟨hno, (local_alignment_score_is_pair_sum ['A', 'C', 'C', 'A'] ['A', 'C', 'A']
    simple_table).imp (fun _ h => ⟨h.1, h.2.2.2.2 hno⟩)⟩

/-- C3: when neither input contains the gap symbol `'*'`, deleting every `'*'` from the
returned `matchString1` gives a contiguous substring of `seq1`, and deleting every `'*'`
from `matchString2` gives a contiguous substring of `seq2`. -/
theorem local_alignment_stripped_are_substrings (s1 s2 : List Char) (bpa : BlosumPenaltyArray)
    (h1 : '*' ∉ s1) (h2 : '*' ∉ s2) :
    ∃ r, local_alignment s1 s2 bpa = some r ∧
      strip_gaps r.matchString1 <:+: s1 ∧ strip_gaps r.matchString2 <:+: s2 := by
  refine ⟨_, local_alignment_eq s1 s2 bpa, ?_, ?_⟩
  · simp only [pure_align_pairs, best_pairs]
    rw [strip_fst s1 s2 h1 _ _ _
      (follows_interior _ s1 s2 _ _ _ (best_trail_follows _ s1 s2)).1 (le_refl _)]
    exact block_is_substring _ _ _
  · simp only [pure_align_pairs, best_pairs]
    rw [strip_snd s1 s2 h2 _ _ _
      (follows_interior _ s1 s2 _ _ _ (best_trail_follows _ s1 s2)).1 (best_col_le _ s1 s2)]
    exact block_is_substring _ _ _

/-- C3 at `seq1 = "ACACACTA"`, `seq2 = "AGCACACA"` with the match/mismatch table. -/
theorem local_alignment_stripped_are_substrings_witness :
    ('*' ∉ ['A', 'C', 'A', 'C', 'A', 'C', 'T', 'A'] ∧
     '*' ∉ ['A', 'G', 'C', 'A', 'C', 'A', 'C', 'A']) ∧
    ∃ r, local_alignment ['A', 'C', 'A', 'C', 'A', 'C', 'T', 'A']
        ['A', 'G', 'C', 'A', 'C', 'A', 'C', 'A'] simple_table = some r ∧
      strip_gaps r.matchString1 <:+: ['A', 'C', 'A', 'C', 'A', 'C', 'T', 'A'] ∧
      strip_gaps r.matchString2 <:+: ['A', 'G', 'C', 'A', 'C', 'A', 'C', 'A'] :=
  ⟨⟨by decide, by decide⟩,
    local_alignment_stripped_are_substrings _ _ simple_table (by decide) (by decide)⟩

/-- C4: the two aligned strings returned by `local_alignment` have the same length. -/
theorem local_alignment_equal_length (s1 s2 : List Char) (bpa : BlosumPenaltyArray) :
    ∃ r, local_alignment s1 s2 bpa = some r ∧
      r.matchString1.length = r.matchString2.length := by
  refine ⟨_, local_alignment_eq s1 s2 bpa, ?_⟩
  simp [pure_align_pairs]

theorem best_col_zero_of_empty (pen : Char → Char → Int) (s1 s2 : List Char)
    (h : s1 = [] ∨ s2 = []) :
    best_col pen s1 s2 = 0 ∧ (scan_row (Dval pen s1 s2 s1.length) s2.length).1 = 0 := by
  obtain ⟨_, h1, h2, h3, _, _⟩ := scan_row_spec (Dval pen s1 s2 s1.length) s2.length
  have hz : (scan_row (Dval pen s1 s2 s1.length) s2.length).2 = 0 := by
    rcases h with rfl | rfl
    · by_contra hne
      have := h3 (by omega)
      simp only [List.length_nil, Dval_zero_left] at this
      omega
    · simp only [List.length_nil] at h1 ⊢
      omega
  exact ⟨hz, h2 hz⟩

/-- C6: if `seq1` or `seq2` is empty then `local_alignment` returns score 0 and sets both
aligned strings to the empty string. -/
theorem local_alignment_empty_input (s1 s2 : List Char) (bpa : BlosumPenaltyArray)
    (h : s1 = [] ∨ s2 = []) :
    ∃ r, local_alignment s1 s2 bpa = some r ∧
      r.score = 0 ∧ r.matchString1 = [] ∧ r.matchString2 = [] := by
  obtain ⟨hz, hs⟩ := best_col_zero_of_empty (penalty_value bpa) s1 s2 h
  have ht : best_pairs (penalty_value bpa) s1 s2 = [] := by
    simp only [best_pairs, best_trail, hz]
    rw [trail_nil_of_boundary _ _ _ _ _ _ (Bval_zero_right _ _ _ _)]
    rfl
  refine ⟨_, local_alignment_eq s1 s2 bpa, ?_, ?_, ?_⟩
  · simp only [pure_align_pairs]; exact hs
  · simp [pure_align_pairs, ht]
  · simp [pure_align_pairs, ht]

/-- C6 at an empty `seq1` against `seq2 = "AC"`. -/
theorem local_alignment_empty_input_witness :
    (([] : List Char) = [] ∨ ['A', 'C'] = []) ∧
    ∃ r, local_alignment [] ['A', 'C'] simple_table = some r ∧
      r.score = 0 ∧ r.matchString1 = [] ∧ r.matchString2 = [] :=
  ⟨Or.inl rfl, local_alignment_empty_input [] ['A', 'C'] simple_table (Or.inl rfl)⟩

/-! ## Optimality -/

theorem Dval_boundary (pen : Char → Char → Int) (s1 s2 : List Char) (i j : Nat)
    (h : i = 0 ∨ j = 0) : Dval pen s1 s2 i j = 0 := by
  rcases h with rfl | rfl
  · rfl
  · exact Dval_zero_right _ _ _ _

/-- C2, refuted as stated: for `seq1 = "AB"`, `seq2 = "A"` and the match/mismatch table the
returned score is 1, while the local alignment of the substrings `"A"` and `"A"` scores 2. -/
theorem local_alignment_not_optimal :
    ∃ r, local_alignment ['A', 'B'] ['A'] simple_table = some r ∧ r.score = 1 ∧
      ∃ cols, IsLocalAlignment ['A', 'B'] ['A'] cols ∧
        r.score < pairs_score (penalty_value simple_table) cols := by
  refine ⟨_, local_alignment_eq _ _ _, by decide, [('A', 'A')], ?_, by decide⟩
  refine ⟨⟨[], ['B'], by decide⟩, ⟨[], [], by decide⟩, by decide⟩

/-- C2, amended: when no candidate sum of the call leaves the range of `int`, the score
returned by `local_alignment` is the greatest element of `anchored_scores`: the maximum of
0 and of the total scores of the gapped alignments whose path starts on row 0 or column 0
of the matrix, runs through interior cells and ends in the bottom row. -/
theorem local_alignment_score_is_anchored_optimum (s1 s2 : List Char)
    (bpa : BlosumPenaltyArray) (hno : NoOverflow s1 s2 bpa) :
    ∃ r, local_alignment s1 s2 bpa = some r ∧
      IsGreatest (anchored_scores (penalty_value bpa) s1 s2) r.score := by
  have hc := noOverflow_cells s1 s2 bpa hno
  refine ⟨_, local_alignment_eq s1 s2 bpa, ?_, ?_⟩
  · simp only
    by_cases hz : best_col (penalty_value bpa) s1 s2 = 0
    · left
      rw [score_eq_Dval, hz, Dval_zero_right]
    · right
      have hf := follows_interior _ s1 s2 _ _ _ (best_trail_follows (penalty_value bpa) s1 s2)
      exact ⟨_, _, by omega, best_col_le _ s1 s2, hf.1, hf.2, score_eq_pairs _ s1 s2 hc⟩
  · intro x hx
    obtain ⟨h0, _, _, _, h4, _⟩ :=
      scan_row_spec (Dval (penalty_value bpa) s1 s2 s1.length) s2.length
    simp only [pure_align_pairs]
    rcases hx with rfl | ⟨j, mv, hj1, hjm, hint, hend, rfl⟩
    · exact h0
    · have h1 := interior_le (penalty_value bpa) s1 s2 _ _ hc mv s1.length j (le_refl _)
        hjm hint
      rw [Dval_boundary _ s1 s2 _ _ hend] at h1
      have h2 := h4 j hj1 (by omega)
      omega

/-- C2 amended, at `seq1 = "AB"`, `seq2 = "A"` with the match/mismatch table. -/
theorem local_alignment_score_is_anchored_optimum_witness :
    NoOverflow ['A', 'B'] ['A'] simple_table ∧
    ∃ r, local_alignment ['A', 'B'] ['A'] simple_table = some r ∧
      IsGreatest (anchored_scores (penalty_value simple_table) ['A', 'B'] ['A']) r.score :=
  ⟨by decide, local_alignment_score_is_anchored_optimum ['A', 'B'] ['A'] simple_table
    (by decide)⟩

/-! ## Aligning a string with itself -/

theorem direction_diag (u l d : Int) (h1 : u < d) (h2 : l < d) : direction u l d = 'd' := by
  unfold direction
  split_ifs <;> first | rfl | omega

theorem self_bound (pen : Char → Char → Int) (s : List Char) (p : Int) (hp : 0 < p)
    (hself : ∀ a ∈ s, pen a a = p) (hoth : ∀ a ∈ s, ∀ b ∈ s, a ≠ b → pen a b ≤ 0)
    (hg1 : ∀ a ∈ s, pen a '*' ≤ 0) (hg2 : ∀ a ∈ s, pen '*' a ≤ 0)
    (hc : CellsInRange pen s s s.length s.length) :
    ∀ i, i ≤ s.length → ∀ j, j ≤ s.length →
      Dval pen s s i j ≤ (i : Int) * p ∧ Dval pen s s i j ≤ (j : Int) * p := by
  intro i
  induction i with
  | zero =>
    intro _ j _
    rw [Dval_zero_left]
    constructor
    · simp
    · positivity
  | succ i ih =>
    intro hi j
    induction j with
    | zero =>
      intro _
      rw [Dval_zero_right]
      constructor
      · positivity
      · simp
    | succ j ihj =>
      intro hj
      have a1 := ih (by omega) (j + 1) hj
      have a2 := ihj (by omega)
      have a3 := ih (by omega) j (by omega)
      have c1 := hg1 _ (char_at_mem s i (by omega))
      have c2 := hg2 _ (char_at_mem s j (by omega))
      have c3 : pen (char_at s i) (char_at s j) ≤ p := by
        by_cases e : char_at s i = char_at s j
        · rw [← e, hself _ (char_at_mem s i (by omega))]
        · have := hoth _ (char_at_mem s i (by omega)) _ (char_at_mem s j (by omega)) e
          omega
      have e1 : ((i + 1 : Nat) : Int) * p = (i : Int) * p + p := by push_cast; ring
      have e2 : ((j + 1 : Nat) : Int) * p = (j : Int) * p + p := by push_cast; ring
      rw [(Dval_succ_exact pen s s _ _ hc i j (by omega) (by omega)).1]
      simp only [raw_u, raw_l, raw_d]
      rw [e1] at a2 ⊢
      rw [e2] at a1 ⊢
      refine ⟨max_le (max_le ?_ ?_) ?_, max_le (max_le ?_ ?_) ?_⟩ <;> omega

theorem self_diag (pen : Char → Char → Int) (s : List Char) (p : Int) (hp : 0 < p)
    (hself : ∀ a ∈ s, pen a a = p) (hoth : ∀ a ∈ s, ∀ b ∈ s, a ≠ b → pen a b ≤ 0)
    (hg1 : ∀ a ∈ s, pen a '*' ≤ 0) (hg2 : ∀ a ∈ s, pen '*' a ≤ 0)
    (hc : CellsInRange pen s s s.length s.length) :
    ∀ i, i ≤ s.length → Dval pen s s i i = (i : Int) * p ∧
      (1 ≤ i → Bval pen s s i i = 'd') := by
  intro i
  induction i with
  | zero => intro _; exact ⟨by simp [Dval_zero_left], fun h => absurd h (by omega)⟩
  | succ i ih =>
    intro hi
    have hb := self_bound pen s p hp hself hoth hg1 hg2 hc
    have hex := Dval_succ_exact pen s s _ _ hc i i (by omega) (by omega)
    have a1 := (hb i (by omega) (i + 1) hi).1
    have a2 := (hb (i + 1) hi i (by omega)).2
    have a3 := (ih (by omega)).1
    have c1 := hg1 _ (char_at_mem s i (by omega))
    have c2 := hg2 _ (char_at_mem s i (by omega))
    have c3 := hself _ (char_at_mem s i (by omega))
    have e1 : ((i + 1 : Nat) : Int) * p = (i : Int) * p + p := by push_cast; ring
    have hu : raw_u pen s s i i < raw_d pen s s i i := by
      simp only [raw_u, raw_d]; omega
    have hl : raw_l pen s s i i < raw_d pen s s i i := by
      simp only [raw_l, raw_d]; omega
    constructor
    · rw [hex.1, max_eq_right (max_le (le_of_lt hu) (le_of_lt hl)), e1]
      simp only [raw_d]; omega
    · intro _
      rw [hex.2]
      exact direction_diag _ _ _ hu hl

theorem self_trail (pen : Char → Char → Int) (s : List Char)
    (hd : ∀ i, 1 ≤ i → i ≤ s.length → Bval pen s s i i = 'd') :
    ∀ i, i ≤ s.length → ∀ fuel, 2 * i < fuel →
      emit s s (trail pen s s fuel i i) i i = ((s.take i).map (fun c => (c, c))).reverse := by
  intro i
  induction i with
  | zero =>
    intro _ fuel _
    rw [trail_nil_of_boundary _ _ _ _ _ _ (Bval_zero_left _ _ _ _)]
    simp [emit]
  | succ i ih =>
    intro hi fuel hf
    obtain ⟨f, rfl⟩ : ∃ f, fuel = f + 1 := ⟨fuel - 1, by omega⟩
    have e1 : ¬ ('d' = 'u') := by decide
    have e2 : ¬ ('d' = 'l') := by decide
    simp only [trail, hd (i + 1) (by omega) hi, e1, e2, if_false, if_true, emit, prev_cell,
      emit_pair, Nat.add_sub_cancel]
    rw [ih (by omega) f (by omega), take_succ_char_at s i (by omega)]
    simp

theorem self_scan (pen : Char → Char → Int) (s : List Char) (p : Int) (hp : 0 < p)
    (hself : ∀ a ∈ s, pen a a = p) (hoth : ∀ a ∈ s, ∀ b ∈ s, a ≠ b → pen a b ≤ 0)
    (hg1 : ∀ a ∈ s, pen a '*' ≤ 0) (hg2 : ∀ a ∈ s, pen '*' a ≤ 0)
    (hc : CellsInRange pen s s s.length s.length) :
    best_col pen s s = s.length ∧
      (scan_row (Dval pen s s s.length) s.length).1 = (s.length : Int) * p := by
  obtain ⟨_, h1, h2, h3, h4, _⟩ := scan_row_spec (Dval pen s s s.length) s.length
  have hdiag := (self_diag pen s p hp hself hoth hg1 hg2 hc s.length (le_refl _)).1
  have hcol : best_col pen s s = s.length := by
    unfold best_col
    by_cases hn : s.length = 0
    · omega
    · have hle := h4 s.length (by omega) (by omega)
      rw [hdiag] at hle
      have hpos : 0 < (s.length : Int) * p := by
        have : 0 < (s.length : Int) := by omega
        positivity
      have hbj : 1 ≤ (scan_row (Dval pen s s s.length) s.length).2 := by
        by_contra hc
        have := h2 (by omega)
        omega
      have hb := (self_bound pen s p hp hself hoth hg1 hg2 hc s.length (le_refl _)
        (scan_row (Dval pen s s s.length) s.length).2 (by omega)).2
      rw [← (h3 hbj).1] at hb
      have hmul : (s.length : Int) * p ≤
          ((scan_row (Dval pen s s s.length) s.length).2 : Int) * p := le_trans hle hb
      have := le_of_mul_le_mul_right hmul hp
      omega
  refine ⟨hcol, ?_⟩
  have hs := score_eq_Dval pen s s
  rw [pure_align_pairs, hcol, hdiag] at hs
  exact hs

/-- C5, refuted as stated: `s = "AA"` and a table in which `'A'` scores `p = 2000000000`
against itself and -1 against the gap symbol meet every hypothesis of the claim; the sum
`D[1][1] + get_penalty ('A', 'A')` leaves the range of `int`, and `local_alignment (s, s)`
returns `"A"` and `"A"` with score 2000000000, not `s` and `length s * p`. -/
theorem local_alignment_self_overflow :
    ('*' ∉ ['A', 'A'] ∧ (0 : Int) < 2000000000 ∧
      (∀ a ∈ ['A', 'A'], penalty_value high_table a a = 2000000000) ∧
      (∀ a ∈ ['A', 'A'], ∀ b ∈ ['A', 'A'], a ≠ b → penalty_value high_table a b ≤ 0) ∧
      (∀ a ∈ ['A', 'A'], penalty_value high_table a '*' ≤ 0) ∧
      (∀ a ∈ ['A', 'A'], penalty_value high_table '*' a ≤ 0)) ∧
    ∃ r, local_alignment ['A', 'A'] ['A', 'A'] high_table = some r ∧
      r.matchString1 = ['A'] ∧ r.matchString2 = ['A'] ∧ r.score = 2000000000 := by
  have h : pure_align (penalty_value high_table) ['A', 'A'] ['A', 'A'] =
      (2000000000, ['A'], ['A']) := by decide
  refine ⟨⟨by decide, by decide, by decide, by decide, by decide, by decide⟩,
    _, local_alignment_eq _ _ _, ?_⟩
  rw [h]
  exact ⟨rfl, rfl, rfl⟩

/-- C5, amended: for a string `s` without the gap symbol and a table in which every symbol
of `s` scores the same positive value `p` against itself, two different symbols of `s` score
at most 0, and a symbol of `s` against the gap symbol (either order) scores at most 0,
when no candidate sum of the call leaves the range of `int`, `local_alignment (s, s)`
returns `matchString1 = matchString2 = s` and `score = length s * p`. -/
theorem local_alignment_self (s : List Char) (bpa : BlosumPenaltyArray) (p : Int)
    (_hs : '*' ∉ s) (hp : 0 < p)
    (hself : ∀ a ∈ s, penalty_value bpa a a = p)
    (hoth : ∀ a ∈ s, ∀ b ∈ s, a ≠ b → penalty_value bpa a b ≤ 0)
    (hg1 : ∀ a ∈ s, penalty_value bpa a '*' ≤ 0)
    (hg2 : ∀ a ∈ s, penalty_value bpa '*' a ≤ 0)
    (hno : NoOverflow s s bpa) :
    ∃ r, local_alignment s s bpa = some r ∧
      r.matchString1 = s ∧ r.matchString2 = s ∧ r.score = (s.length : Int) * p := by
  have hc := noOverflow_cells s s bpa hno
  obtain ⟨hcol, hscore⟩ := self_scan (penalty_value bpa) s p hp hself hoth hg1 hg2 hc
  have hpairs : best_pairs (penalty_value bpa) s s = (s.map (fun c => (c, c))).reverse := by
    simp only [best_pairs, best_trail, hcol]
    rw [self_trail (penalty_value bpa) s
      (fun i h1 h2 => (self_diag _ s p hp hself hoth hg1 hg2 hc i h2).2 h1)
      s.length (le_refl _) _ (by omega), List.take_length]
  refine ⟨_, local_alignment_eq s s bpa, ?_, ?_, ?_⟩
  · simp only [pure_align_pairs, hpairs, ← List.map_reverse, List.reverse_reverse,
      List.map_map]
    exact List.map_id _
  · simp only [pure_align_pairs, hpairs, ← List.map_reverse, List.reverse_reverse,
      List.map_map]
    exact List.map_id _
  · simp only [pure_align_pairs]
    exact hscore

/-- C5 amended, at `s = "ACCA"` with the match/mismatch table, where `p = 2`. -/
theorem local_alignment_self_witness :
    ('*' ∉ ['A', 'C', 'C', 'A'] ∧ (0 : Int) < 2 ∧
      (∀ a ∈ ['A', 'C', 'C', 'A'], penalty_value simple_table a a = 2) ∧
      (∀ a ∈ ['A', 'C', 'C', 'A'], ∀ b ∈ ['A', 'C', 'C', 'A'], a ≠ b →
        penalty_value simple_table a b ≤ 0) ∧
      (∀ a ∈ ['A', 'C', 'C', 'A'], penalty_value simple_table a '*' ≤ 0) ∧
      (∀ a ∈ ['A', 'C', 'C', 'A'], penalty_value simple_table '*' a ≤ 0) ∧
      NoOverflow ['A', 'C', 'C', 'A'] ['A', 'C', 'C', 'A'] simple_table) ∧
    ∃ r, local_alignment ['A', 'C', 'C', 'A'] ['A', 'C', 'C', 'A'] simple_table = some r ∧
      r.matchString1 = ['A', 'C', 'C', 'A'] ∧ r.matchString2 = ['A', 'C', 'C', 'A'] ∧
      r.score = ((['A', 'C', 'C', 'A'] : List Char).length : Int) * 2 :=
  have hno : NoOverflow ['A', 'C', 'C', 'A'] ['A', 'C', 'C', 'A'] simple_table := by decide
  ⟨⟨by decide, by decide, by decide, by decide, by decide, by decide, hno⟩,
    local_alignment_self ['A', 'C', 'C', 'A'] simple_table 2
      (by decide) (by decide) (by decide) (by decide) (by decide) (by decide) hno⟩

/-! ## The end-to-end scenario -/

set_option maxRecDepth 100000 in
/-- C7: with the table scoring `+2` for a symbol against itself and `-1` for every other
pair (two different symbols, a symbol against the gap symbol),
`local_alignment ("ACACACTA", "AGCACACA")` returns score 12 with
`matchString1 = "A*CACACTA"` and `matchString2 = "AGCACAC*A"`: the score is positive, the
two strings have equal length and their gap-stripped forms are substrings of the inputs. -/
theorem local_alignment_scenario :
    ∃ r, local_alignment ['A', 'C', 'A', 'C', 'A', 'C', 'T', 'A']
        ['A', 'G', 'C', 'A', 'C', 'A', 'C', 'A'] simple_table = some r ∧
      r.score = 12 ∧
      r.matchString1 = ['A', '*', 'C', 'A', 'C', 'A', 'C', 'T', 'A'] ∧
      r.matchString2 = ['A', 'G', 'C', 'A', 'C', 'A', 'C', '*', 'A'] ∧
      0 < r.score ∧ r.matchString1.length = r.matchString2.length ∧
      strip_gaps r.matchString1 <:+: ['A', 'C', 'A', 'C', 'A', 'C', 'T', 'A'] ∧
      strip_gaps r.matchString2 <:+: ['A', 'G', 'C', 'A', 'C', 'A', 'C', 'A'] := by
  have h : pure_align (penalty_value simple_table) ['A', 'C', 'A', 'C', 'A', 'C', 'T', 'A']
      ['A', 'G', 'C', 'A', 'C', 'A', 'C', 'A'] =
      (12, ['A', '*', 'C', 'A', 'C', 'A', 'C', 'T', 'A'],
        ['A', 'G', 'C', 'A', 'C', 'A', 'C', '*', 'A']) := by decide
  refine ⟨_, local_alignment_eq _ _ _, ?_⟩
  rw [h]
  exact ⟨rfl, rfl, rfl, by decide, rfl, ⟨[], [], by decide⟩, ⟨[], [], by decide⟩⟩

/-! ## The candidate loop -/

theorem score_of_nonneg (pen : Char → Char → Int) (s1 : List Char) (p : Protein) :
    0 ≤ score_of pen s1 p :=
  (scan_row_spec (Dval pen s1 p.sequence s1.length) p.sequence.length).1

theorem match_step_eq (s1 : List Char) (st : MatchState) (p : Protein) :
    match_step s1 st p = some
      (if score_of (penalty_value st.bpa) s1 p > st.best_score then
        ⟨p, score_of (penalty_value st.bpa) s1 p,
          (pure_align (penalty_value st.bpa) s1 p.sequence).2.1,
          (pure_align (penalty_value st.bpa) s1 p.sequence).2.2,
          (fill s1 p.sequence s1.length p.sequence.length
            (init_state s1.length p.sequence.length st.bpa)).bpa⟩
      else
        ⟨st.best_protein, st.best_score, st.matchString1, st.matchString2,
          (fill s1 p.sequence s1.length p.sequence.length
            (init_state s1.length p.sequence.length st.bpa)).bpa⟩) := by
  simp only [match_step, local_alignment_eq, score_of]
  split_ifs <;> rfl

theorem foldlM_match_step (pen : Char → Char → Int) (s1 : List Char) :
    ∀ (ps : List Protein) (st : MatchState), penalty_value st.bpa = pen →
      ∃ st2, ps.foldlM (match_step s1) st = some st2 ∧ penalty_value st2.bpa = pen ∧
        LoopResult pen s1 ps st st2 := by
  intro ps
  induction ps with
  | nil =>
    intro st hst
    exact ⟨st, rfl, hst, Or.inl ⟨by simp, rfl, rfl, rfl, rfl⟩⟩
  | cons p ps ih =>
    intro st hst
    rw [List.foldlM_cons, match_step_eq, hst]
    simp only [Option.some_bind, Option.bind_eq_bind]
    have hb : penalty_value (fill s1 p.sequence s1.length p.sequence.length
        (init_state s1.length p.sequence.length st.bpa)).bpa = pen := by
      rw [fill_penalty_value, hst]
    by_cases hgt : score_of pen s1 p > st.best_score
    · rw [if_pos hgt]
      obtain ⟨st2, h1, h2, h3⟩ := ih ⟨p, score_of pen s1 p, (pure_align pen s1 p.sequence).2.1,
        (pure_align pen s1 p.sequence).2.2, _⟩ hb
      refine ⟨st2, h1, h2, Or.inr ?_⟩
      rcases h3 with ⟨a1, a2, a3, a4, a5⟩ | ⟨k, q, b1, b2, b3, b4, b5, b6, b7⟩
      · refine ⟨0, p, by simp, a2, a3, a4, a5, hgt, ?_⟩
        intro k2 q2 hk2
        cases k2 with
        | zero =>
          simp only [List.getElem?_cons_zero, Option.some.injEq] at hk2
          subst hk2
          exact ⟨le_refl _, fun h => absurd h (by omega)⟩
        | succ k2 =>
          simp only [List.getElem?_cons_succ] at hk2
          exact ⟨a1 q2 (List.getElem?_mem hk2), fun h => absurd h (by omega)⟩
      · simp only at b6
        refine ⟨k + 1, q, by simpa using b1, b2, b3, b4, b5, by omega, ?_⟩
        intro k2 q2 hk2
        cases k2 with
        | zero =>
          simp only [List.getElem?_cons_zero, Option.some.injEq] at hk2
          subst hk2
          exact ⟨le_of_lt b6, fun _ => b6⟩
        | succ k2 =>
          simp only [List.getElem?_cons_succ] at hk2
          exact ⟨(b7 k2 q2 hk2).1, fun h => (b7 k2 q2 hk2).2 (by omega)⟩
    · rw [if_neg hgt]
      obtain ⟨st2, h1, h2, h3⟩ := ih ⟨st.best_protein, st.best_score, st.matchString1,
        st.matchString2, _⟩ hb
      refine ⟨st2, h1, h2, ?_⟩
      rcases h3 with ⟨a1, a2, a3, a4, a5⟩ | ⟨k, q, b1, b2, b3, b4, b5, b6, b7⟩
      · left
        refine ⟨?_, a2, a3, a4, a5⟩
        intro q hq
        rcases List.mem_cons.mp hq with rfl | hq
        · exact not_lt.mp hgt
        · exact a1 q hq
      · right
        simp only at b6
        refine ⟨k + 1, q, by simpa using b1, b2, b3, b4, b5, b6, ?_⟩
        intro k2 q2 hk2
        cases k2 with
        | zero =>
          simp only [List.getElem?_cons_zero, Option.some.injEq] at hk2
          subst hk2
          have := not_lt.mp hgt
          exact ⟨by omega, fun _ => by omega⟩
        | succ k2 =>
          simp only [List.getElem?_cons_succ] at hk2
          exact ⟨(b7 k2 q2 hk2).1, fun h => (b7 k2 q2 hk2).2 (by omega)⟩

/-- The whole of `local_alignment_best_match` on a non-empty vector. -/
theorem best_match_spec (p0 : Protein) (ps : List Protein) (s1 : List Char)
    (bpa : BlosumPenaltyArray) (ms1 ms2 : List Char) :
    ∃ st2, local_alignment_best_match (p0 :: ps) s1 bpa ms1 ms2 = some st2 ∧
      LoopResult (penalty_value bpa) s1 (p0 :: ps) ⟨p0, 0, ms1, ms2, bpa⟩ st2 := by
  obtain ⟨st2, h1, _, h3⟩ :=
    foldlM_match_step (penalty_value bpa) s1 (p0 :: ps) ⟨p0, 0, ms1, ms2, bpa⟩ rfl
  exact ⟨st2, h1, h3⟩

/-! ## Claims about `local_alignment_best_match` -/

/-- C8: for a non-empty candidate vector, `local_alignment_best_match` returns
`candidates[k]` where `k` is the smallest index whose `local_alignment` score against the
query is the maximum over all candidates: every candidate scores at most as much as the
returned one, and every earlier candidate scores strictly less. -/
theorem best_match_first_maximum (proteins : List Protein) (s1 : List Char)
    (bpa : BlosumPenaltyArray) (ms1 ms2 : List Char) (hne : proteins ≠ []) :
    ∃ (st : MatchState) (k : Nat) (rk : AlignResult),
      local_alignment_best_match proteins s1 bpa ms1 ms2 = some st ∧
      proteins[k]? = some st.best_protein ∧
      local_alignment s1 st.best_protein.sequence bpa = some rk ∧
      st.best_score = rk.score ∧
      ∀ (k2 : Nat) (q2 : Protein), proteins[k2]? = some q2 →
        ∃ r2, local_alignment s1 q2.sequence bpa = some r2 ∧
          r2.score ≤ rk.score ∧ (k2 < k → r2.score < rk.score) := by
  cases proteins with
  | nil => exact absurd rfl hne
  | cons p0 ps =>
    obtain ⟨st, h1, h2⟩ := best_match_spec p0 ps s1 bpa ms1 ms2
    rcases h2 with ⟨a1, a2, a3, _, _⟩ | ⟨k, q, b1, b2, b3, _, _, _, b7⟩
    · simp only at a1 a2 a3
      have hp0 : score_of (penalty_value bpa) s1 p0 = 0 :=
        le_antisymm (a1 p0 (List.mem_cons_self _ _)) (score_of_nonneg _ _ _)
      refine ⟨st, 0, _, h1, by simp [a2], local_alignment_eq _ _ _, ?_, ?_⟩
      · rw [a3, a2]; exact hp0.symm
      · intro k2 q2 hk2
        refine ⟨_, local_alignment_eq _ _ _, ?_, fun h => absurd h (by omega)⟩
        rw [a2]
        have := a1 q2 (List.getElem?_mem hk2)
        simp only [score_of] at this hp0
        simp only
        omega
    · subst b2
      refine ⟨st, k, _, h1, b1, local_alignment_eq _ _ _, b3, ?_⟩
      intro k2 q2 hk2
      exact ⟨_, local_alignment_eq _ _ _, (b7 k2 q2 hk2).1, (b7 k2 q2 hk2).2⟩

/-- C8 at the query `"A"` with candidates `"C"`, `"A"`, `"A"`. -/
theorem best_match_first_maximum_witness :
    ([⟨['x'], ['C']⟩, ⟨['y'], ['A']⟩, ⟨['z'], ['A']⟩] : List Protein) ≠ [] ∧
    ∃ (st : MatchState) (k : Nat) (rk : AlignResult),
      local_alignment_best_match [⟨['x'], ['C']⟩, ⟨['y'], ['A']⟩, ⟨['z'], ['A']⟩] ['A']
        simple_table [] [] = some st ∧
      ([⟨['x'], ['C']⟩, ⟨['y'], ['A']⟩, ⟨['z'], ['A']⟩] : List Protein)[k]?
        = some st.best_protein ∧
      local_alignment ['A'] st.best_protein.sequence simple_table = some rk ∧
      st.best_score = rk.score ∧
      ∀ (k2 : Nat) (q2 : Protein),
        ([⟨['x'], ['C']⟩, ⟨['y'], ['A']⟩, ⟨['z'], ['A']⟩] : List Protein)[k2]? = some q2 →
        ∃ r2, local_alignment ['A'] q2.sequence simple_table = some r2 ∧
          r2.score ≤ rk.score ∧ (k2 < k → r2.score < rk.score) :=
  ⟨by decide, best_match_first_maximum _ ['A'] simple_table [] [] (by decide)⟩

/-- C9: for a non-empty candidate vector, if every candidate's `local_alignment` score
against the query is at most 0 then `local_alignment_best_match` returns `candidates[0]`. -/
theorem best_match_all_nonpositive (proteins : List Protein) (s1 : List Char)
    (bpa : BlosumPenaltyArray) (ms1 ms2 : List Char) (hne : proteins ≠ [])
    (hall : ∀ p ∈ proteins, ∀ r, local_alignment s1 p.sequence bpa = some r → r.score ≤ 0) :
    ∃ st, local_alignment_best_match proteins s1 bpa ms1 ms2 = some st ∧
      proteins[0]? = some st.best_protein := by
  cases proteins with
  | nil => exact absurd rfl hne
  | cons p0 ps =>
    obtain ⟨st, h1, h2⟩ := best_match_spec p0 ps s1 bpa ms1 ms2
    refine ⟨st, h1, ?_⟩
    rcases h2 with ⟨_, a2, _⟩ | ⟨k, q, b1, _, _, _, _, b6, _⟩
    · simp [a2]
    · exfalso
      have := hall q (List.getElem?_mem b1) _ (local_alignment_eq _ _ _)
      simp only [score_of] at b6
      simp only at this
      omega

/-- C9 at the query `"A"` with candidates `"C"` and `"G"`, which both score 0. -/
theorem best_match_all_nonpositive_witness :
    (([⟨['x'], ['C']⟩, ⟨['y'], ['G']⟩] : List Protein) ≠ [] ∧
      ∀ p ∈ ([⟨['x'], ['C']⟩, ⟨['y'], ['G']⟩] : List Protein),
        ∀ r, local_alignment ['A'] p.sequence simple_table = some r → r.score ≤ 0) ∧
    ∃ st, local_alignment_best_match [⟨['x'], ['C']⟩, ⟨['y'], ['G']⟩] ['A'] simple_table
        ['X'] ['Y'] = some st ∧
      ([⟨['x'], ['C']⟩, ⟨['y'], ['G']⟩] : List Protein)[0]? = some st.best_protein :=
  have hall : ∀ p ∈ ([⟨['x'], ['C']⟩, ⟨['y'], ['G']⟩] : List Protein),
      ∀ r, local_alignment ['A'] p.sequence simple_table = some r → r.score ≤ 0 := by
    intro p hp r hr
    simp only [List.mem_cons, List.mem_singleton, List.not_mem_nil, or_false] at hp
    rcases hp with rfl | rfl
    · rw [local_alignment_eq] at hr
      cases hr
      decide
    · rw [local_alignment_eq] at hr
      cases hr
      decide
  ⟨⟨by decide, hall⟩,
    best_match_all_nonpositive _ ['A'] simple_table ['X'] ['Y'] (by decide) hall⟩

/-- C10, the failing input: with the single candidate `"C"`, the query `"A"` and the
match/mismatch table, the call that finds `"X"` and `"Y"` in the two output strings
returns the candidate and leaves `"X"` and `"Y"` there, while `local_alignment` of the
query against that candidate produces two empty strings. -/
theorem best_match_stale_strings :
    (local_alignment_best_match [⟨['p'], ['C']⟩] ['A'] simple_table ['X'] ['Y']).map
        (fun st => (st.best_protein, st.matchString1, st.matchString2))
      = some (⟨['p'], ['C']⟩, ['X'], ['Y']) ∧
    (local_alignment ['A'] ['C'] simple_table).map
        (fun r => (r.score, r.matchString1, r.matchString2)) = some (0, [], []) := by
  decide

/-- The output strings of `local_alignment_best_match`: when some candidate scores more
than 0 they are the aligned strings of the returned record, otherwise they are the strings
found at the call. -/
theorem best_match_strings (proteins : List Protein) (s1 : List Char)
    (bpa : BlosumPenaltyArray) (ms1 ms2 : List Char) (hne : proteins ≠ []) :
    ∃ st r, local_alignment_best_match proteins s1 bpa ms1 ms2 = some st ∧
      local_alignment s1 st.best_protein.sequence bpa = some r ∧
      ((0 < st.best_score ∧ st.matchString1 = r.matchString1 ∧
          st.matchString2 = r.matchString2) ∨
       (st.best_score = 0 ∧ st.matchString1 = ms1 ∧ st.matchString2 = ms2)) := by
  cases proteins with
  | nil => exact absurd rfl hne
  | cons p0 ps =>
    obtain ⟨st, h1, h2⟩ := best_match_spec p0 ps s1 bpa ms1 ms2
    refine ⟨st, _, h1, local_alignment_eq _ _ _, ?_⟩
    rcases h2 with ⟨_, _, a3, a4, a5⟩ | ⟨k, q, _, b2, b3, b4, b5, b6, _⟩
    · exact Or.inr ⟨a3, a4, a5⟩
    · subst b2
      simp only at b6
      exact Or.inl ⟨by omega, b4, b5⟩

/-! ## Lookups, registrations and the table as a frame -/

theorem penalty_value_set_penalty_self (t : BlosumPenaltyArray) (a b : Char) (s : Int) :
    penalty_value (set_penalty t a b s) a b = s := by
  simp [penalty_value_eq, set_penalty, inner_map]

theorem penalty_value_set_penalty_ne (t : BlosumPenaltyArray) (a b c d : Char) (s : Int)
    (h : (c, d) ≠ (a, b)) :
    penalty_value (set_penalty t a b s) c d = penalty_value t c d := by
  simp only [penalty_value_eq, set_penalty, inner_map]
  by_cases hc : c = a
  · subst hc
    have hd : d ≠ b := fun e => h (by rw [e])
    simp [hd]
  · simp [hc]

theorem registered_get_penalty (t : BlosumPenaltyArray) (a b : Char) :
    registered (get_penalty t a b).2 a b = true := by
  simp [registered, get_penalty]

theorem get_penalty_eq_self (t : BlosumPenaltyArray) (a b : Char)
    (h : registered t a b = true) : (get_penalty t a b).2 = t := by
  cases t with
  | mk pm =>
    simp only [registered] at h
    simp only [get_penalty, inner_map]
    congr 1
    funext x
    by_cases hx : x = a
    · subst hx
      rw [if_pos rfl]
      cases hpm : pm x with
      | none => rw [hpm] at h; exact absurd h (by simp)
      | some f =>
        rw [hpm] at h
        simp only [Option.getD_some]
        congr 1
        funext y
        by_cases hy : y = b
        · subst hy
          rw [if_pos rfl]
          have h2 : (f y).isSome = true := h
          cases hf : f y with
          | none => rw [hf] at h2; exact absurd h2 (by simp)
          | some v => rfl
        · rw [if_neg hy]
    · rw [if_neg hx]

theorem run_ops_never_set (a b : Char) :
    ∀ (ops : List TableOp) (t : BlosumPenaltyArray), penalty_value t a b = 0 →
      (∀ s, TableOp.set a b s ∉ ops) → penalty_value (ops.foldl apply_op t) a b = 0 := by
  intro ops
  induction ops with
  | nil => intro t h _; exact h
  | cons op ops ih =>
    intro t h hset
    rw [List.foldl_cons]
    apply ih
    · cases op with
      | set c d p =>
        have hne : (a, b) ≠ (c, d) := by
          intro e
          obtain ⟨rfl, rfl⟩ := Prod.mk.inj e
          exact hset p (List.mem_cons_self _ _)
        simp only [apply_op]
        rw [penalty_value_set_penalty_ne t c d a b p hne]
        exact h
      | get c d =>
        simp only [apply_op]
        rw [penalty_value_get_penalty]
        exact h
    · intro s hs
      exact hset s (List.mem_cons_of_mem _ hs)

/-- C11, refuted as stated: on a default-constructed table the pair `('A', 'B')` is not
registered, and `get_penalty ('A', 'B')` returns the score 0 and leaves the pair
registered. -/
theorem get_penalty_unregistered_returns_zero :
    registered BlosumPenaltyArray.empty 'A' 'B' = false ∧
    (get_penalty BlosumPenaltyArray.empty 'A' 'B').1 = 0 ∧
    registered (get_penalty BlosumPenaltyArray.empty 'A' 'B').2 'A' 'B' = true := by
  decide

/-- C11, amended: on a table built from a default-constructed one by any sequence of
`set_penalty` and `get_penalty` calls in which `set_penalty (a, b, _)` never occurs,
`get_penalty (a, b)` returns the default score 0 and leaves the pair registered. -/
theorem get_penalty_never_set_is_zero (ops : List TableOp) (a b : Char)
    (h : ∀ s, TableOp.set a b s ∉ ops) :
    (get_penalty (run_ops ops) a b).1 = 0 ∧
    registered (get_penalty (run_ops ops) a b).2 a b = true :=
  ⟨run_ops_never_set a b ops BlosumPenaltyArray.empty rfl h, registered_get_penalty _ a b⟩

/-- C11 amended, after `set_penalty ('A', 'A', 2)` and `get_penalty ('A', 'B')`, at the
pair `('A', 'C')`. -/
theorem get_penalty_never_set_is_zero_witness :
    (∀ s, TableOp.set 'A' 'C' s ∉ [TableOp.set 'A' 'A' 2, TableOp.get 'A' 'B']) ∧
    (get_penalty (run_ops [TableOp.set 'A' 'A' 2, TableOp.get 'A' 'B']) 'A' 'C').1 = 0 ∧
    registered (get_penalty (run_ops [TableOp.set 'A' 'A' 2, TableOp.get 'A' 'B'])
      'A' 'C').2 'A' 'C' = true :=
  have h : ∀ s, TableOp.set 'A' 'C' s ∉ [TableOp.set 'A' 'A' 2, TableOp.get 'A' 'B'] := by
    intro s hs
    simp at hs
  ⟨h, get_penalty_never_set_is_zero _ 'A' 'C' h⟩

/-- C13: after `set_penalty (a, b, s)`, `get_penalty (a, b)` returns `s`, and
`get_penalty (c, d)` returns what it returned before for every ordered pair `(c, d)` other
than `(a, b)`; in particular, for `a ≠ b` the score of the reversed pair `(b, a)` is
unchanged. -/
theorem set_penalty_then_get_penalty (t : BlosumPenaltyArray) (a b : Char) (s : Int) :
    (get_penalty (set_penalty t a b s) a b).1 = s ∧
    (∀ c d, (c, d) ≠ (a, b) →
      (get_penalty (set_penalty t a b s) c d).1 = (get_penalty t c d).1) ∧
    (a ≠ b → (get_penalty (set_penalty t a b s) b a).1 = (get_penalty t b a).1) := by
  refine ⟨penalty_value_set_penalty_self t a b s,
    fun c d h => penalty_value_set_penalty_ne t a b c d s h, ?_⟩
  intro hab
  apply penalty_value_set_penalty_ne t a b b a s
  intro e
  exact hab (Prod.mk.inj e).2

/-- C13 at `set_penalty ('A', 'B', 5)` on a default-constructed table: the pair
`('A', 'B')` then scores 5 and the reversed pair `('B', 'A')` still scores what it did. -/
theorem set_penalty_then_get_penalty_witness :
    ('A' ≠ 'B' ∧ (('B', 'A') : Char × Char) ≠ ('A', 'B')) ∧
    (get_penalty (set_penalty BlosumPenaltyArray.empty 'A' 'B' 5) 'A' 'B').1 = 5 ∧
    (get_penalty (set_penalty BlosumPenaltyArray.empty 'A' 'B' 5) 'B' 'A').1 =
      (get_penalty BlosumPenaltyArray.empty 'B' 'A').1 :=
  ⟨⟨by decide, by decide⟩,
    (set_penalty_then_get_penalty BlosumPenaltyArray.empty 'A' 'B' 5).1,
    (set_penalty_then_get_penalty BlosumPenaltyArray.empty 'A' 'B' 5).2.1 'B' 'A'
      (by decide)⟩

theorem registered_get_penalty_mono (t : BlosumPenaltyArray) (a b c d : Char)
    (h : registered t c d = true) : registered (get_penalty t a b).2 c d = true := by
  simp only [registered, get_penalty, inner_map] at h ⊢
  by_cases hc : c = a
  · subst hc
    rw [if_pos rfl]
    by_cases hd : d = b
    · subst hd; simp
    · simp only [if_neg hd]
      cases hpm : t.penaltyMap c with
      | none => rw [hpm] at h; exact absurd h (by simp)
      | some f => rw [hpm] at h; exact h
  · rw [if_neg hc]
    exact h

theorem cell_step_bpa (s1 s2 : List Char) (i j : Nat) (s : AlignState)
    (h1 : registered s.bpa (char_at s1 (i - 1)) '*' = true)
    (h2 : registered s.bpa '*' (char_at s2 (j - 1)) = true)
    (h3 : registered s.bpa (char_at s1 (i - 1)) (char_at s2 (j - 1)) = true) :
    (cell_step s1 s2 i j s).bpa = s.bpa := by
  simp only [cell_step]
  rw [get_penalty_eq_self _ _ _ h1, get_penalty_eq_self _ _ _ h2, get_penalty_eq_self _ _ _ h3]

theorem cell_step_registered_mono (s1 s2 : List Char) (i j : Nat) (s : AlignState)
    (c d : Char) (h : registered s.bpa c d = true) :
    registered (cell_step s1 s2 i j s).bpa c d = true := by
  simp only [cell_step]
  exact registered_get_penalty_mono _ _ _ _ _
    (registered_get_penalty_mono _ _ _ _ _ (registered_get_penalty_mono _ _ _ _ _ h))

/-- The fill loops leave a table unchanged when every pair they look up is registered. -/
theorem fill_bpa_unchanged (s1 s2 : List Char) (bpa : BlosumPenaltyArray)
    (hq : ∀ a b, Queried s1 s2 a b → registered bpa a b = true) :
    (fill s1 s2 s1.length s2.length (init_state s1.length s2.length bpa)).bpa = bpa := by
  have hrow : ∀ i s, 1 ≤ i → i ≤ s1.length → s.bpa = bpa →
      (fill_row s1 s2 s2.length i s).bpa = bpa := by
    intro i s hi1 hin hs
    have := foldl_range'_inv (fun s j => cell_step s1 s2 i j s)
      (fun _ s => s.bpa = bpa) s2.length 1 s hs
      (fun k s hk1 hk2 hP => by
        have hc1 : char_at s1 (i - 1) ∈ s1 := char_at_mem s1 (i - 1) (by omega)
        have hc2 : char_at s2 (k - 1) ∈ s2 := char_at_mem s2 (k - 1) (by omega)
        have hne1 : s1 ≠ [] := List.ne_nil_of_mem hc1
        have hne2 : s2 ≠ [] := List.ne_nil_of_mem hc2
        simp only at hP ⊢
        rw [cell_step_bpa s1 s2 i k s
          (by rw [hP]; exact hq _ _ (Or.inl ⟨hc1, rfl, hne2⟩))
          (by rw [hP]; exact hq _ _ (Or.inr (Or.inl ⟨rfl, hc2, hne1⟩)))
          (by rw [hP]; exact hq _ _ (Or.inr (Or.inr ⟨hc1, hc2⟩)))]
        exact hP)
    exact this
  exact foldl_range'_inv (fun s i => fill_row s1 s2 s2.length i s)
    (fun _ s => s.bpa = bpa) s1.length 1 _ rfl
    (fun k s hk1 hk2 hP => hrow k s hk1 (by omega) hP)

/-- The fill loops never remove a registered pair. -/
theorem fill_registered_mono (s1 s2 : List Char) (n m : Nat) (bpa : BlosumPenaltyArray)
    (c d : Char) (h : registered bpa c d = true) :
    registered (fill s1 s2 n m (init_state n m bpa)).bpa c d = true := by
  have hrow : ∀ i s, registered s.bpa c d = true →
      registered (fill_row s1 s2 m i s).bpa c d = true := by
    intro i s hs
    exact foldl_range'_inv (fun s j => cell_step s1 s2 i j s)
      (fun _ s => registered s.bpa c d = true) m 1 s hs
      (fun k s _ _ hP => cell_step_registered_mono s1 s2 i k s c d hP)
  exact foldl_range'_inv (fun s i => fill_row s1 s2 m i s)
    (fun _ s => registered s.bpa c d = true) n 1 _ h
    (fun k s _ _ hP => hrow k s hP)

theorem registered_get_penalty_iff (t : BlosumPenaltyArray) (a b c d : Char) :
    registered (get_penalty t a b).2 c d = true ↔
      registered t c d = true ∨ (c = a ∧ d = b) := by
  constructor
  · intro h
    by_cases e : c = a ∧ d = b
    · exact Or.inr e
    · left
      simp only [registered, get_penalty, inner_map] at h ⊢
      by_cases hc : c = a
      · subst hc
        have hd : d ≠ b := fun hd => e ⟨rfl, hd⟩
        rw [if_pos rfl] at h
        simp only [if_neg hd] at h
        cases hpm : t.penaltyMap c with
        | none => rw [hpm] at h; exact absurd h (by simp)
        | some f => rw [hpm] at h; exact h
      · rw [if_neg hc] at h
        exact h
  · rintro (h | ⟨rfl, rfl⟩)
    · exact registered_get_penalty_mono t a b c d h
    · exact registered_get_penalty t c d

theorem penalty_value_unregistered (t : BlosumPenaltyArray) (a b : Char)
    (h : registered t a b = false) : penalty_value t a b = 0 := by
  simp only [registered] at h
  simp only [penalty_value_eq, inner_map]
  cases hpm : t.penaltyMap a with
  | none => rfl
  | some f =>
    rw [hpm] at h
    have h2 : (f b).isSome = false := h
    cases hf : f b with
    | none => simp only [Option.getD_some, hf, Option.getD_none]
    | some v => rw [hf] at h2; exact absurd h2 (by simp)

theorem cell_step_registers (s1 s2 : List Char) (i j : Nat) (s : AlignState) :
    CellPairsRegistered s1 s2 (cell_step s1 s2 i j s).bpa i j := by
  simp only [cell_step, CellPairsRegistered]
  exact ⟨registered_get_penalty_mono _ _ _ _ _
      (registered_get_penalty_mono _ _ _ _ _ (registered_get_penalty _ _ _)),
    registered_get_penalty_mono _ _ _ _ _ (registered_get_penalty _ _ _),
    registered_get_penalty _ _ _⟩

theorem cellPairs_mono (s1 s2 : List Char) (t t2 : BlosumPenaltyArray) (i j : Nat)
    (hm : ∀ c d, registered t c d = true → registered t2 c d = true)
    (h : CellPairsRegistered s1 s2 t i j) : CellPairsRegistered s1 s2 t2 i j :=
  ⟨hm _ _ h.1, hm _ _ h.2.1, hm _ _ h.2.2⟩

theorem fill_row_registered_mono (s1 s2 : List Char) (m i : Nat) (s : AlignState)
    (c d : Char) (h : registered s.bpa c d = true) :
    registered (fill_row s1 s2 m i s).bpa c d = true :=
  foldl_range'_inv (fun s j => cell_step s1 s2 i j s)
    (fun _ s => registered s.bpa c d = true) m 1 s h
    (fun k s _ _ hP => cell_step_registered_mono s1 s2 i k s c d hP)

theorem fill_row_registers (s1 s2 : List Char) (m i : Nat) (s : AlignState) :
    ∀ j2, 1 ≤ j2 → j2 ≤ m → CellPairsRegistered s1 s2 (fill_row s1 s2 m i s).bpa i j2 := by
  have key := foldl_range'_inv (fun s j => cell_step s1 s2 i j s)
    (fun k s => ∀ j2, 1 ≤ j2 → j2 < k → CellPairsRegistered s1 s2 s.bpa i j2) m 1 s
    (fun j2 h1 h2 => absurd h2 (by omega))
    (fun k s _ _ hP j2 h1 h2 => by
      by_cases e : j2 = k
      · subst e
        exact cell_step_registers s1 s2 i j2 s
      · exact cellPairs_mono s1 s2 _ _ i j2
          (fun c d h => cell_step_registered_mono s1 s2 i k s c d h) (hP j2 h1 (by omega)))
  intro j2 h1 h2
  exact key j2 h1 (by omega)

/-- After the fill loops the three pairs of every interior cell are registered. -/
theorem fill_registers (s1 s2 : List Char) (n m : Nat) (bpa : BlosumPenaltyArray) :
    ∀ i2 j2, 1 ≤ i2 → i2 ≤ n → 1 ≤ j2 → j2 ≤ m →
      CellPairsRegistered s1 s2 (fill s1 s2 n m (init_state n m bpa)).bpa i2 j2 := by
  have key := foldl_range'_inv (fun s i => fill_row s1 s2 m i s)
    (fun k s => ∀ i2 j2, 1 ≤ i2 → i2 < k → 1 ≤ j2 → j2 ≤ m →
      CellPairsRegistered s1 s2 s.bpa i2 j2) n 1 (init_state n m bpa)
    (fun i2 j2 h1 h2 => absurd h2 (by omega))
    (fun k s _ _ hP i2 j2 h1 h2 h3 h4 => by
      by_cases e : i2 = k
      · subst e
        exact fill_row_registers s1 s2 m i2 s j2 h3 h4
      · exact cellPairs_mono s1 s2 _ _ i2 j2
          (fun c d h => fill_row_registered_mono s1 s2 m k s c d h)
          (hP i2 j2 h1 (by omega) h3 h4))
  intro i2 j2 h1 h2 h3 h4
  exact key i2 j2 h1 (by omega) h3 h4

/-- The fill loops register no pair other than those they look up. -/
theorem fill_registers_only (s1 s2 : List Char) (bpa : BlosumPenaltyArray) :
    ∀ a b, registered (fill s1 s2 s1.length s2.length
        (init_state s1.length s2.length bpa)).bpa a b = true →
      registered bpa a b = true ∨ Queried s1 s2 a b := by
  have hrow : ∀ i s, 1 ≤ i → i ≤ s1.length →
      (∀ a b, registered s.bpa a b = true → registered bpa a b = true ∨ Queried s1 s2 a b) →
      ∀ a b, registered (fill_row s1 s2 s2.length i s).bpa a b = true →
        registered bpa a b = true ∨ Queried s1 s2 a b := by
    intro i s hi1 hin hs
    exact foldl_range'_inv (fun s j => cell_step s1 s2 i j s)
      (fun _ s => ∀ a b, registered s.bpa a b = true →
        registered bpa a b = true ∨ Queried s1 s2 a b) s2.length 1 s hs
      (fun k s hk1 hk2 hP a b h => by
        have hc1 : char_at s1 (i - 1) ∈ s1 := char_at_mem s1 (i - 1) (by omega)
        have hc2 : char_at s2 (k - 1) ∈ s2 := char_at_mem s2 (k - 1) (by omega)
        have hne1 : s1 ≠ [] := List.ne_nil_of_mem hc1
        have hne2 : s2 ≠ [] := List.ne_nil_of_mem hc2
        simp only [cell_step] at h
        rcases (registered_get_penalty_iff _ _ _ _ _).mp h with h | ⟨rfl, rfl⟩
        · rcases (registered_get_penalty_iff _ _ _ _ _).mp h with h | ⟨rfl, rfl⟩
          · rcases (registered_get_penalty_iff _ _ _ _ _).mp h with h | ⟨rfl, rfl⟩
            · exact hP a b h
            · exact Or.inr (Or.inl ⟨hc1, rfl, hne2⟩)
          · exact Or.inr (Or.inr (Or.inl ⟨rfl, hc2, hne1⟩))
        · exact Or.inr (Or.inr (Or.inr ⟨hc1, hc2⟩)))
  exact foldl_range'_inv (fun s i => fill_row s1 s2 s2.length i s)
    (fun _ s => ∀ a b, registered s.bpa a b = true →
      registered bpa a b = true ∨ Queried s1 s2 a b) s1.length 1 _
    (fun a b h => Or.inl h)
    (fun k s hk1 hk2 hP => hrow k s hk1 (by omega) hP)

theorem char_at_of_mem (s : List Char) (a : Char) (h : a ∈ s) :
    ∃ k, k < s.length ∧ char_at s k = a := by
  obtain ⟨k, hk, e⟩ := List.mem_iff_getElem.mp h
  exact ⟨k, hk, by rw [char_at_eq s k hk, e]⟩

/-- The table that the fill loops leave holds exactly the pairs registered before and the
pairs looked up. -/
theorem fill_registered_iff (s1 s2 : List Char) (bpa : BlosumPenaltyArray) (a b : Char) :
    registered (fill s1 s2 s1.length s2.length
        (init_state s1.length s2.length bpa)).bpa a b = true ↔
      registered bpa a b = true ∨ Queried s1 s2 a b := by
  constructor
  · exact fill_registers_only s1 s2 bpa a b
  · rintro (h | ⟨ha, rfl, hne⟩ | ⟨rfl, hb, hne⟩ | ⟨ha, hb⟩)
    · exact fill_registered_mono s1 s2 _ _ bpa a b h
    · obtain ⟨i, hi, rfl⟩ := char_at_of_mem s1 a ha
      have hm : 1 ≤ s2.length := List.length_pos.mpr hne
      exact (fill_registers s1 s2 _ _ bpa (i + 1) 1 (by omega) (by omega) (le_refl _) hm).1
    · obtain ⟨j, hj, rfl⟩ := char_at_of_mem s2 b hb
      have hn : 1 ≤ s1.length := List.length_pos.mpr hne
      exact (fill_registers s1 s2 _ _ bpa 1 (j + 1) (le_refl _) hn (by omega) (by omega)).2.1
    · obtain ⟨i, hi, rfl⟩ := char_at_of_mem s1 a ha
      obtain ⟨j, hj, rfl⟩ := char_at_of_mem s2 b hb
      exact (fill_registers s1 s2 _ _ bpa (i + 1) (j + 1) (by omega) (by omega) (by omega)
        (by omega)).2.2

/-- C12, refuted as stated: on a default-constructed table the pair `('A', 'B')` is not
registered; it is registered after `get_penalty ('A', 'B')`, and also in the table that
`local_alignment ("A", "B")` leaves. -/
theorem table_not_read_only :
    registered BlosumPenaltyArray.empty 'A' 'B' = false ∧
    registered (get_penalty BlosumPenaltyArray.empty 'A' 'B').2 'A' 'B' = true ∧
    (local_alignment ['A'] ['B'] BlosumPenaltyArray.empty).map
      (fun r => registered r.bpa 'A' 'B') = some true := by
  decide

/-- C12, amended: `get_penalty` and `local_alignment` never change the score that any
lookup returns and never remove a registered pair, and they leave the table exactly as it
was when every pair they look up is registered; a pair that is looked up while it is not
registered becomes registered with score 0, and nothing else is registered: after
`get_penalty (a, b)` the registered pairs are those registered before and `(a, b)`, and
after `local_alignment (s1, s2)` they are those registered before and the pairs looked
up. -/
theorem table_frame (s1 s2 : List Char) (bpa : BlosumPenaltyArray) :
    (∀ a b,
      (∀ c d, (get_penalty (get_penalty bpa a b).2 c d).1 = (get_penalty bpa c d).1) ∧
      (∀ c d, registered bpa c d = true → registered (get_penalty bpa a b).2 c d = true) ∧
      (registered bpa a b = true → (get_penalty bpa a b).2 = bpa) ∧
      registered (get_penalty bpa a b).2 a b = true ∧
      (∀ c d, registered (get_penalty bpa a b).2 c d = true ↔
        registered bpa c d = true ∨ (c = a ∧ d = b)) ∧
      (registered bpa a b = false →
        (get_penalty (get_penalty bpa a b).2 a b).1 = 0)) ∧
    ∃ r, local_alignment s1 s2 bpa = some r ∧
      (∀ c d, (get_penalty r.bpa c d).1 = (get_penalty bpa c d).1) ∧
      (∀ c d, registered bpa c d = true → registered r.bpa c d = true) ∧
      ((∀ a b, Queried s1 s2 a b → registered bpa a b = true) → r.bpa = bpa) ∧
      (∀ a b, Queried s1 s2 a b → registered r.bpa a b = true) ∧
      (∀ a b, registered r.bpa a b = true ↔
        registered bpa a b = true ∨ Queried s1 s2 a b) ∧
      (∀ a b, registered bpa a b = false → (get_penalty r.bpa a b).1 = 0) := by
  refine ⟨fun a b => ⟨fun c d => penalty_value_get_penalty bpa a b c d,
    fun c d h => registered_get_penalty_mono bpa a b c d h,
    fun h => get_penalty_eq_self bpa a b h, registered_get_penalty bpa a b,
    fun c d => registered_get_penalty_iff bpa a b c d, ?_⟩, ?_⟩
  · intro h
    exact (penalty_value_get_penalty bpa a b a b).trans (penalty_value_unregistered bpa a b h)
  refine ⟨_, local_alignment_eq s1 s2 bpa, ?_, ?_, ?_, ?_, ?_, ?_⟩
  · intro c d
    exact (fill_spec bpa s1 s2 s1.length s2.length).1 c d
  · intro c d h
    exact fill_registered_mono s1 s2 _ _ bpa c d h
  · intro hq
    exact fill_bpa_unchanged s1 s2 bpa hq
  · intro a b hq
    exact (fill_registered_iff s1 s2 bpa a b).mpr (Or.inr hq)
  · intro a b
    exact fill_registered_iff s1 s2 bpa a b
  · intro a b h
    exact ((fill_spec bpa s1 s2 s1.length s2.length).1 a b).trans
      (penalty_value_unregistered bpa a b h)

/-- C12 amended, at `seq1 = "A"`, `seq2 = "C"` on a default-constructed table: the pair
`('A', 'C')` is looked up while it is not registered, and the table that `local_alignment`
leaves has it registered with score 0. -/
theorem table_frame_witness :
    (Queried ['A'] ['C'] 'A' 'C' ∧ registered BlosumPenaltyArray.empty 'A' 'C' = false) ∧
    ∃ r, local_alignment ['A'] ['C'] BlosumPenaltyArray.empty = some r ∧
      registered r.bpa 'A' 'C' = true ∧ (get_penalty r.bpa 'A' 'C').1 = 0 :=
  have hq : Queried ['A'] ['C'] 'A' 'C' := Or.inr (Or.inr ⟨by decide, by decide⟩)
  ⟨⟨hq, rfl⟩, (table_frame ['A'] ['C'] BlosumPenaltyArray.empty).2.imp
    (fun _ h => ⟨h.1, h.2.2.2.2.1 'A' 'C' hq, h.2.2.2.2.2.2 'A' 'C' rfl⟩)⟩

/-! ## The bottom row and the start column -/

/-- C14: the score returned by `local_alignment` is the greatest of 0 and the entries
`D[n][j]`, `1 ≤ j ≤ m`, of the bottom row, so it is never negative; when it is positive the
traceback starts at the smallest column `j` in `1..m` with `D[n][j]` equal to the score,
and otherwise it starts at column 0. -/
theorem local_alignment_score_is_row_maximum (s1 s2 : List Char) (bpa : BlosumPenaltyArray) :
    ∃ r, local_alignment s1 s2 bpa = some r ∧
      traceback s1 s2 (final_state s1 s2 bpa).B (s1.length + s2.length + 1) s1.length
        (start_col s1 s2 bpa) [] [] = some (r.matchString1.reverse, r.matchString2.reverse) ∧
      IsGreatest {x | x = 0 ∨ ∃ j, 1 ≤ j ∧ j ≤ s2.length ∧
        x = get2 (final_state s1 s2 bpa).D s1.length j 0} r.score ∧
      0 ≤ r.score ∧
      (0 < r.score → 1 ≤ start_col s1 s2 bpa ∧ start_col s1 s2 bpa ≤ s2.length ∧
        get2 (final_state s1 s2 bpa).D s1.length (start_col s1 s2 bpa) 0 = r.score ∧
        ∀ j, 1 ≤ j → j < start_col s1 s2 bpa →
          get2 (final_state s1 s2 bpa).D s1.length j 0 < r.score) ∧
      (¬ 0 < r.score → start_col s1 s2 bpa = 0) := by
  obtain ⟨h0, h1, h2, h3, h4, h5⟩ :=
    scan_row_spec (Dval (penalty_value bpa) s1 s2 s1.length) s2.length
  have hcol := start_col_eq s1 s2 bpa
  have hbj := best_col_le (penalty_value bpa) s1 s2
  refine ⟨_, local_alignment_eq s1 s2 bpa, ?_, ⟨?_, ?_⟩, ?_, ?_, ?_⟩
  · rw [traceback_eq (penalty_value bpa) s1 s2 (final_state s1 s2 bpa).B s1.length s2.length
      (fun i j hi hj => final_B s1 s2 bpa i j hi hj) _ _ _ [] [] (le_refl _)
      (by rw [hcol]; exact hbj) (by rw [hcol]; omega), hcol]
    simp [pure_align_pairs, best_pairs, best_trail]
  · simp only [pure_align_pairs, Set.mem_setOf_eq]
    by_cases hz : (scan_row (Dval (penalty_value bpa) s1 s2 s1.length) s2.length).2 = 0
    · exact Or.inl (h2 hz)
    · right
      refine ⟨(scan_row (Dval (penalty_value bpa) s1 s2 s1.length) s2.length).2,
        by omega, by omega, ?_⟩
      rw [final_D s1 s2 bpa _ _ (le_refl _) (by omega)]
      exact (h3 (by omega)).1
  · intro x hx
    simp only [pure_align_pairs]
    rcases hx with rfl | ⟨j, hj1, hjm, rfl⟩
    · exact h0
    · rw [final_D s1 s2 bpa _ _ (le_refl _) hjm]
      exact h4 j hj1 (by omega)
  · simp only [pure_align_pairs]
    exact h0
  · simp only [pure_align_pairs, hcol, best_col]
    intro hpos
    have hne : (scan_row (Dval (penalty_value bpa) s1 s2 s1.length) s2.length).2 ≠ 0 := by
      intro hz
      have := h2 hz
      omega
    refine ⟨by omega, by omega, ?_, ?_⟩
    · rw [final_D s1 s2 bpa _ _ (le_refl _) (by omega)]
      exact ((h3 (by omega)).1).symm
    · intro j hj1 hj2
      rw [final_D s1 s2 bpa _ _ (le_refl _) (by omega)]
      exact h5 j hj1 hj2
  · simp only [pure_align_pairs, hcol, best_col]
    intro hnp
    by_contra hne
    exact hnp (h3 (by omega)).2

/-! ## The stored tags and cell values -/

theorem direction_l_iff (u l d : Int) : direction u l d = 'l' ↔ l > u ∧ l > d := by
  have e1 : ¬ ('d' = 'l') := by decide
  have e2 : ¬ ('u' = 'l') := by decide
  unfold direction
  split_ifs with h1 h2 h2
  · exact ⟨fun _ => ⟨h1, h2⟩, fun _ => rfl⟩
  · exact ⟨fun h => absurd h e1, fun h => absurd h.2 h2⟩
  · exact ⟨fun h => absurd h e2, fun h => absurd h.1 h1⟩
  · exact ⟨fun h => absurd h e1, fun h => absurd h.1 h1⟩

theorem direction_u_iff (u l d : Int) : direction u l d = 'u' ↔ u ≥ l ∧ u > d := by
  have e1 : ¬ ('l' = 'u') := by decide
  have e2 : ¬ ('d' = 'u') := by decide
  unfold direction
  split_ifs with h1 h2 h2
  · exact ⟨fun h => absurd h e1, fun h => absurd h.1 (by omega)⟩
  · exact ⟨fun h => absurd h e2, fun h => absurd h.1 (by omega)⟩
  · exact ⟨fun _ => ⟨by omega, h2⟩, fun _ => rfl⟩
  · exact ⟨fun h => absurd h e2, fun h => absurd h.2 h2⟩

theorem direction_d_iff (u l d : Int) :
    direction u l d = 'd' ↔ ¬ (l > u ∧ l > d) ∧ ¬ (u ≥ l ∧ u > d) := by
  have e1 : ¬ ('l' = 'd') := by decide
  have e2 : ¬ ('u' = 'd') := by decide
  unfold direction
  split_ifs with h1 h2 h2
  · exact ⟨fun h => absurd h e1, fun h => absurd ⟨h1, h2⟩ h.1⟩
  · exact ⟨fun _ => ⟨fun h => h2 h.2, fun h => by omega⟩, fun _ => rfl⟩
  · exact ⟨fun h => absurd h e2, fun h => absurd ⟨by omega, h2⟩ h.2⟩
  · exact ⟨fun _ => ⟨fun h => h1 h.1, fun h => h2 h.2⟩, fun _ => rfl⟩

theorem final_B_interior (s1 s2 : List Char) (bpa : BlosumPenaltyArray) (i j : Nat)
    (hi1 : 1 ≤ i) (hin : i ≤ s1.length) (hj1 : 1 ≤ j) (hjm : j ≤ s2.length) :
    get2 (final_state s1 s2 bpa).B i j '?' =
      direction (up_at s1 s2 bpa i j) (left_at s1 s2 bpa i j) (diag_at s1 s2 bpa i j) := by
  obtain ⟨i0, rfl⟩ : ∃ i0, i = i0 + 1 := ⟨i - 1, by omega⟩
  obtain ⟨j0, rfl⟩ : ∃ j0, j = j0 + 1 := ⟨j - 1, by omega⟩
  obtain ⟨e1, e2, e3⟩ := cands_eq s1 s2 bpa i0 j0 hin hjm
  rw [final_B s1 s2 bpa _ _ hin hjm, Bval_succ, e1, e2, e3]

theorem final_D_interior (s1 s2 : List Char) (bpa : BlosumPenaltyArray) (i j : Nat)
    (hi1 : 1 ≤ i) (hin : i ≤ s1.length) (hj1 : 1 ≤ j) (hjm : j ≤ s2.length) :
    get2 (final_state s1 s2 bpa).D i j 0 =
      max (max (up_at s1 s2 bpa i j) (left_at s1 s2 bpa i j)) (diag_at s1 s2 bpa i j) := by
  obtain ⟨i0, rfl⟩ : ∃ i0, i = i0 + 1 := ⟨i - 1, by omega⟩
  obtain ⟨j0, rfl⟩ : ∃ j0, j = j0 + 1 := ⟨j - 1, by omega⟩
  obtain ⟨e1, e2, e3⟩ := cands_eq s1 s2 bpa i0 j0 hin hjm
  rw [final_D s1 s2 bpa _ _ hin hjm, Dval_succ, e1, e2, e3]

/-- C15: at every interior cell the tag that `local_alignment` stores is `'l'` exactly when
`left > up` and `left > diag`, `'u'` exactly when `up ≥ left` and `up > diag`, and `'d'`
otherwise.  So with `up = left` and both above `diag` the tag is `'u'`, for which the
traceback appends the residue of `seq1` to `matchString1` and a gap to `matchString2`; and
with `diag ≥ max up left` the tag is `'d'`. -/
theorem stored_tag_rule (s1 s2 : List Char) (bpa : BlosumPenaltyArray) (i j : Nat)
    (hi1 : 1 ≤ i) (hin : i ≤ s1.length) (hj1 : 1 ≤ j) (hjm : j ≤ s2.length) :
    (get2 (final_state s1 s2 bpa).B i j '?' = 'l' ↔
      left_at s1 s2 bpa i j > up_at s1 s2 bpa i j ∧
      left_at s1 s2 bpa i j > diag_at s1 s2 bpa i j) ∧
    (get2 (final_state s1 s2 bpa).B i j '?' = 'u' ↔
      up_at s1 s2 bpa i j ≥ left_at s1 s2 bpa i j ∧
      up_at s1 s2 bpa i j > diag_at s1 s2 bpa i j) ∧
    (get2 (final_state s1 s2 bpa).B i j '?' = 'd' ↔
      ¬ (left_at s1 s2 bpa i j > up_at s1 s2 bpa i j ∧
        left_at s1 s2 bpa i j > diag_at s1 s2 bpa i j) ∧
      ¬ (up_at s1 s2 bpa i j ≥ left_at s1 s2 bpa i j ∧
        up_at s1 s2 bpa i j > diag_at s1 s2 bpa i j)) ∧
    (up_at s1 s2 bpa i j = left_at s1 s2 bpa i j →
      up_at s1 s2 bpa i j > diag_at s1 s2 bpa i j →
      get2 (final_state s1 s2 bpa).B i j '?' = 'u') ∧
    (diag_at s1 s2 bpa i j ≥ max (up_at s1 s2 bpa i j) (left_at s1 s2 bpa i j) →
      get2 (final_state s1 s2 bpa).B i j '?' = 'd') ∧
    (get2 (final_state s1 s2 bpa).B i j '?' = 'u' → ∀ fuel m1 m2,
      traceback s1 s2 (final_state s1 s2 bpa).B (fuel + 1) i j m1 m2 =
        traceback s1 s2 (final_state s1 s2 bpa).B fuel (i - 1) j
          (m1 ++ [char_at s1 (i - 1)]) (m2 ++ ['*'])) := by
  rw [final_B_interior s1 s2 bpa i j hi1 hin hj1 hjm]
  refine ⟨direction_l_iff _ _ _, direction_u_iff _ _ _, direction_d_iff _ _ _, ?_, ?_, ?_⟩
  · intro h1 h2
    exact (direction_u_iff _ _ _).mpr ⟨by omega, h2⟩
  · intro h
    have h1 := le_trans (le_max_left _ _) h
    have h2 := le_trans (le_max_right _ _) h
    exact (direction_d_iff _ _ _).mpr ⟨fun h3 => by omega, fun h3 => by omega⟩
  · intro h fuel m1 m2
    have hb := final_B_interior s1 s2 bpa i j hi1 hin hj1 hjm
    have e : ¬ ('u' = '?') := by decide
    simp only [traceback, hb, h, e, if_false, if_true]

/-- C15 at cell `(1, 1)` of `seq1 = "A"`, `seq2 = "C"` with a table in which both gap pairs
score -1 and the pair `('A', 'C')` scores -3: `up = left = -1 > diag = -3`, and the tag
is `'u'`. -/
theorem stored_tag_rule_witness :
    ((1 ≤ 1 ∧ 1 ≤ (['A'] : List Char).length) ∧ 1 ≤ 1 ∧ 1 ≤ (['C'] : List Char).length) ∧
    up_at ['A'] ['C'] tie_table 1 1 = left_at ['A'] ['C'] tie_table 1 1 ∧
    up_at ['A'] ['C'] tie_table 1 1 > diag_at ['A'] ['C'] tie_table 1 1 ∧
    get2 (final_state ['A'] ['C'] tie_table).B 1 1 '?' = 'u' :=
  ⟨⟨⟨by decide, by decide⟩, by decide, by decide⟩, by decide, by decide,
    (stored_tag_rule ['A'] ['C'] tie_table 1 1 (by decide) (by decide) (by decide)
      (by decide)).2.2.2.1 (by decide) (by decide)⟩

/-- C16: every interior cell of the score matrix holds exactly `max (max up left) diag`,
with no floor at zero, while row 0 and column 0 hold 0; for `seq1 = "A"`, `seq2 = "B"` and
a table in which the three pairs looked up score -1, `D[1][1] = -1`. -/
theorem cell_value_rule (s1 s2 : List Char) (bpa : BlosumPenaltyArray) :
    (∀ i j, 1 ≤ i → i ≤ s1.length → 1 ≤ j → j ≤ s2.length →
      get2 (final_state s1 s2 bpa).D i j 0 =
        max (max (up_at s1 s2 bpa i j) (left_at s1 s2 bpa i j)) (diag_at s1 s2 bpa i j)) ∧
    (∀ i, i ≤ s1.length → get2 (final_state s1 s2 bpa).D i 0 0 = 0) ∧
    (∀ j, j ≤ s2.length → get2 (final_state s1 s2 bpa).D 0 j 0 = 0) ∧
    ((get_penalty minus_one_table 'A' '*').1 = -1 ∧
      (get_penalty minus_one_table '*' 'B').1 = -1 ∧
      (get_penalty minus_one_table 'A' 'B').1 = -1 ∧
      get2 (final_state ['A'] ['B'] minus_one_table).D 1 1 0 = -1) := by
  refine ⟨fun i j hi1 hin hj1 hjm => final_D_interior s1 s2 bpa i j hi1 hin hj1 hjm, ?_, ?_,
    by decide⟩
  · intro i hi
    rw [final_D s1 s2 bpa i 0 hi (Nat.zero_le _), Dval_zero_right]
  · intro j hj
    rw [final_D s1 s2 bpa 0 j (Nat.zero_le _) hj, Dval_zero_left]

/-- C16 at cell `(1, 1)` of `seq1 = "A"`, `seq2 = "B"` with the table of -1 scores. -/
theorem cell_value_rule_witness :
    ((1 ≤ 1 ∧ 1 ≤ (['A'] : List Char).length) ∧ 1 ≤ 1 ∧ 1 ≤ (['B'] : List Char).length) ∧
    get2 (final_state ['A'] ['B'] minus_one_table).D 1 1 0 =
      max (max (up_at ['A'] ['B'] minus_one_table 1 1) (left_at ['A'] ['B'] minus_one_table 1 1))
        (diag_at ['A'] ['B'] minus_one_table 1 1) :=
  ⟨⟨⟨by decide, by decide⟩, by decide, by decide⟩,
    (cell_value_rule ['A'] ['B'] minus_one_table).1 1 1 (by decide) (by decide) (by decide)
      (by decide)⟩

/-! ## Where the alignment lies -/

theorem emit_length (s1 s2 : List Char) :
    ∀ (mv : List Move) (i j : Nat), (emit s1 s2 mv i j).length = mv.length := by
  intro mv
  induction mv with
  | nil => intro i j; rfl
  | cons a r ih => intro i j; simp [emit, ih]

theorem interior_length : ∀ (mv : List Move) (i j : Nat), Interior mv i j →
    mv.length + (walk_end mv i j).1 + (walk_end mv i j).2 ≤ i + j := by
  intro mv
  induction mv with
  | nil => intro i j _; simp [walk_end]
  | cons a r ih =>
    intro i j h
    obtain ⟨hi, hj, hr⟩ := h
    have := ih _ _ hr
    simp only [walk_end, List.length_cons]
    cases a <;> simp only [prev_cell] at this ⊢ <;> omega

theorem follows_stored (s1 s2 : List Char) (bpa : BlosumPenaltyArray) :
    ∀ (mv : List Move) (i j : Nat), i ≤ s1.length → j ≤ s2.length →
      Follows (penalty_value bpa) s1 s2 mv i j →
      StoredWalk (final_state s1 s2 bpa).B mv i j := by
  intro mv
  induction mv with
  | nil =>
    intro i j hi hj hf
    exact (final_B s1 s2 bpa i j hi hj).trans hf
  | cons a r ih =>
    intro i j hi hj hf
    have hp := prev_cell_le a i j _ _ hi hj
    exact ⟨(final_B s1 s2 bpa i j hi hj).trans hf.1, ih _ _ hp.1 hp.2 hf.2⟩

/-- C17: for inputs without the gap symbol, when `local_alignment` returns a positive score
the traceback starts at an interior cell `(n, bot_j)`, follows the stored tags and stops at
a cell `(i0, j0)` of row 0 or column 0, having left interior cells only; the two aligned
strings are the pairs emitted along that walk; the gap-stripped `matchString1` is
the suffix of `seq1` from position `i0`, the gap-stripped `matchString2` is the block of
`seq2` from position `j0` to the start column, so either the gap-stripped `matchString1` is
all of `seq1` (`i0 = 0`) or the gap-stripped `matchString2` is a prefix of `seq2`
(`j0 = 0`). -/
theorem local_alignment_path_position (s1 s2 : List Char) (bpa : BlosumPenaltyArray)
    (h1 : '*' ∉ s1) (h2 : '*' ∉ s2) :
    ∃ r, local_alignment s1 s2 bpa = some r ∧
      (0 < r.score →
        1 ≤ s1.length ∧ 1 ≤ start_col s1 s2 bpa ∧ start_col s1 s2 bpa ≤ s2.length ∧
        ∃ (mv : List Move) (i0 j0 : Nat),
          walk_end mv s1.length (start_col s1 s2 bpa) = (i0, j0) ∧
          Interior mv s1.length (start_col s1 s2 bpa) ∧
          StoredWalk (final_state s1 s2 bpa).B mv s1.length (start_col s1 s2 bpa) ∧
          r.matchString1 =
            ((emit s1 s2 mv s1.length (start_col s1 s2 bpa)).map Prod.fst).reverse ∧
          r.matchString2 =
            ((emit s1 s2 mv s1.length (start_col s1 s2 bpa)).map Prod.snd).reverse ∧
          (i0 = 0 ∨ j0 = 0) ∧
          get2 (final_state s1 s2 bpa).B i0 j0 '?' = '?' ∧
          i0 ≤ s1.length ∧ j0 ≤ start_col s1 s2 bpa ∧
          strip_gaps r.matchString1 = s1.drop i0 ∧
          strip_gaps r.matchString2 = (s2.take (start_col s1 s2 bpa)).drop j0 ∧
          strip_gaps r.matchString1 <:+ s1 ∧
          (i0 = 0 → strip_gaps r.matchString1 = s1) ∧
          (j0 = 0 → strip_gaps r.matchString2 = s2.take (start_col s1 s2 bpa) ∧
            strip_gaps r.matchString2 <+: s2) ∧
          (strip_gaps r.matchString1 = s1 ∨ strip_gaps r.matchString2 <+: s2)) := by
  obtain ⟨_, _, hz0, hz1, _, _⟩ :=
    scan_row_spec (Dval (penalty_value bpa) s1 s2 s1.length) s2.length
  refine ⟨_, local_alignment_eq s1 s2 bpa, ?_⟩
  intro hpos
  have hfol := best_trail_follows (penalty_value bpa) s1 s2
  have hf := follows_interior _ s1 s2 _ _ _ hfol
  have hle := walk_end_le (best_trail (penalty_value bpa) s1 s2) s1.length
    (best_col (penalty_value bpa) s1 s2)
  have hbj := best_col_le (penalty_value bpa) s1 s2
  have e1 := strip_fst s1 s2 h1 _ _ _ hf.1 (le_refl _)
  have e2 := strip_snd s1 s2 h2 _ _ _ hf.1 hbj
  rw [List.take_length] at e1
  have hD := score_eq_Dval (penalty_value bpa) s1 s2
  simp only at hpos
  have hcol : 1 ≤ best_col (penalty_value bpa) s1 s2 := by
    by_contra hc
    have hz : best_col (penalty_value bpa) s1 s2 = 0 := by omega
    rw [hD, hz, Dval_zero_right] at hpos
    exact absurd hpos (lt_irrefl _)
  have hn : 1 ≤ s1.length := by
    by_contra hc
    have hz : s1.length = 0 := by omega
    have hD0 : Dval (penalty_value bpa) s1 s2 s1.length
        (best_col (penalty_value bpa) s1 s2) = 0 := by
      rw [hz]; rfl
    rw [hD, hD0] at hpos
    exact absurd hpos (lt_irrefl _)
  have hstop : Bval (penalty_value bpa) s1 s2
      (walk_end (best_trail (penalty_value bpa) s1 s2) s1.length
        (best_col (penalty_value bpa) s1 s2)).1
      (walk_end (best_trail (penalty_value bpa) s1 s2) s1.length
        (best_col (penalty_value bpa) s1 s2)).2 = '?' := by
    rcases hf.2 with hz | hz
    · rw [hz]; rfl
    · rw [hz]; exact Bval_zero_right _ _ _ _
  simp only [start_col_eq]
  refine ⟨hn, hcol, hbj, best_trail (penalty_value bpa) s1 s2,
    (walk_end (best_trail (penalty_value bpa) s1 s2) s1.length
      (best_col (penalty_value bpa) s1 s2)).1,
    (walk_end (best_trail (penalty_value bpa) s1 s2) s1.length
      (best_col (penalty_value bpa) s1 s2)).2, rfl, hf.1,
    follows_stored s1 s2 bpa _ _ _ (le_refl _) hbj hfol, rfl, rfl, hf.2, ?_, hle.1, hle.2,
    e1, e2, ?_, ?_, ?_, ?_⟩
  · rw [final_B s1 s2 bpa _ _ hle.1 (le_trans hle.2 hbj)]
    exact hstop
  · show strip_gaps ((best_pairs (penalty_value bpa) s1 s2).map Prod.fst).reverse <:+ s1
    simp only [best_pairs]
    rw [e1]
    exact List.drop_suffix _ _
  · intro hz
    show strip_gaps ((best_pairs (penalty_value bpa) s1 s2).map Prod.fst).reverse = s1
    simp only [best_pairs]
    rw [e1, hz, List.drop_zero]
  · intro hz
    show strip_gaps ((best_pairs (penalty_value bpa) s1 s2).map Prod.snd).reverse = _ ∧
      strip_gaps ((best_pairs (penalty_value bpa) s1 s2).map Prod.snd).reverse <+: s2
    simp only [best_pairs]
    rw [e2, hz, List.drop_zero]
    exact ⟨rfl, List.take_prefix _ _⟩
  · show strip_gaps ((best_pairs (penalty_value bpa) s1 s2).map Prod.fst).reverse = s1 ∨
      strip_gaps ((best_pairs (penalty_value bpa) s1 s2).map Prod.snd).reverse <+: s2
    simp only [best_pairs]
    rw [e1, e2]
    rcases hf.2 with hz | hz
    · left
      rw [hz, List.drop_zero]
    · right
      rw [hz, List.drop_zero]
      exact List.take_prefix _ _

/-- C17 at `seq1 = "ACCA"`, `seq2 = "ACA"` with the match/mismatch table, where the score
is positive. -/
theorem local_alignment_path_position_witness :
    ('*' ∉ ['A', 'C', 'C', 'A'] ∧ '*' ∉ ['A', 'C', 'A']) ∧
    ∃ r, local_alignment ['A', 'C', 'C', 'A'] ['A', 'C', 'A'] simple_table = some r ∧
      0 < r.score ∧
      strip_gaps r.matchString1 <:+ ['A', 'C', 'C', 'A'] ∧
      (strip_gaps r.matchString1 = ['A', 'C', 'C', 'A'] ∨
        strip_gaps r.matchString2 <+: ['A', 'C', 'A']) := by
  refine ⟨⟨by decide, by decide⟩, ?_⟩
  obtain ⟨r, hr, h⟩ := local_alignment_path_position ['A', 'C', 'C', 'A'] ['A', 'C', 'A']
    simple_table (by decide) (by decide)
  have hpos : 0 < r.score := by
    rw [local_alignment_eq] at hr
    cases hr
    decide
  obtain ⟨_, _, _, mv, i0, j0, _, _, _, _, _, _, _, _, _, _, _, h11, _, _, h14⟩ := h hpos
  exact ⟨r, hr, hpos, h11, h14⟩

/-- C18: `local_alignment` returns score 0 if and only if both returned aligned strings
are empty. -/
theorem local_alignment_zero_iff_empty (s1 s2 : List Char) (bpa : BlosumPenaltyArray) :
    ∃ r, local_alignment s1 s2 bpa = some r ∧
      (r.score = 0 ↔ r.matchString1 = [] ∧ r.matchString2 = []) := by
  obtain ⟨h0, h1, h2, h3, _, _⟩ :=
    scan_row_spec (Dval (penalty_value bpa) s1 s2 s1.length) s2.length
  have hfol := best_trail_follows (penalty_value bpa) s1 s2
  refine ⟨_, local_alignment_eq s1 s2 bpa, ?_⟩
  simp only [pure_align_pairs]
  constructor
  · intro hz
    have hcol : best_col (penalty_value bpa) s1 s2 = 0 := by
      unfold best_col
      by_contra hne
      have := (h3 (by omega)).2
      omega
    have ht : best_pairs (penalty_value bpa) s1 s2 = [] := by
      simp only [best_pairs, best_trail, hcol]
      rw [trail_nil_of_boundary _ _ _ _ _ _ (Bval_zero_right _ _ _ _)]
      rfl
    simp [ht]
  · intro hempty
    by_contra hne
    have hcol : 1 ≤ best_col (penalty_value bpa) s1 s2 := by
      unfold best_col
      by_contra hc
      exact hne (h2 (by omega))
    have hD := score_eq_Dval (penalty_value bpa) s1 s2
    rw [pure_align_pairs] at hD
    simp only at hD
    have hn : 1 ≤ s1.length := by
      by_contra hc
      have hz : s1.length = 0 := by omega
      have hD0 : Dval (penalty_value bpa) s1 s2 s1.length
          (best_col (penalty_value bpa) s1 s2) = 0 := by
        rw [hz]; rfl
      exact hne (hD.trans hD0)
    have hnil : best_pairs (penalty_value bpa) s1 s2 = [] := by
      have := hempty.1
      simpa using this
    have hlen := emit_length s1 s2 (best_trail (penalty_value bpa) s1 s2) s1.length
      (best_col (penalty_value bpa) s1 s2)
    have htr : best_trail (penalty_value bpa) s1 s2 = [] := by
      apply List.eq_nil_of_length_eq_zero
      rw [← hlen]
      simp only [best_pairs] at hnil
      rw [hnil]
      rfl
    rw [htr] at hfol
    rcases Bval_cases (penalty_value bpa) s1 s2 s1.length (best_col (penalty_value bpa) s1 s2)
      with ⟨hb, _⟩ | ⟨_, _, mv, hmv, _⟩
    · omega
    · exact move_char_ne mv (hmv.symm.trans hfol)

/-! ## The matrix and the enumeration of paths -/

theorem Dval_is_path_maximum (pen : Char → Char → Int) (s1 s2 : List Char) (n m : Nat)
    (hc : CellsInRange pen s1 s2 n m) (i j : Nat) (hi : i ≤ n) (hj : j ≤ m) :
    IsGreatest (path_scores pen s1 s2 i j) (Dval pen s1 s2 i j) := by
  constructor
  · have hfol := trail_follows pen s1 s2 (i + j + 1) i j (by omega)
    have hint := follows_interior pen s1 s2 _ _ _ hfol
    exact ⟨_, hint.1, hint.2, follows_score_exact pen s1 s2 n m hc _ _ _ hi hj hfol⟩
  · rintro x ⟨mv, hint, hend, rfl⟩
    have h := interior_le pen s1 s2 n m hc mv i j hi hj hint
    rw [Dval_boundary pen s1 s2 _ _ hend] at h
    omega

/-- C19, refuted as stated: for `seq1 = seq2 = "AA"` and a table in which `'A'` scores
2000000000 against itself and -1 against the gap symbol, the sum
`D[1][1] + get_penalty ('A', 'A')` leaves the range of `int`: `D[2][2]` is 1999999999 and
the returned score is 2000000000, while the path of two diagonal steps from `(0, 0)` to
`(2, 2)` totals 4000000000. -/
theorem matrix_overflow_below_path :
    get2 (final_state ['A', 'A'] ['A', 'A'] high_table).D 2 2 0 = 1999999999 ∧
    (local_alignment ['A', 'A'] ['A', 'A'] high_table).map (fun r => r.score)
      = some 2000000000 ∧
    (4000000000 : Int) ∈
      path_scores (fun a b => (get_penalty high_table a b).1) ['A', 'A'] ['A', 'A'] 2 2 := by
  refine ⟨?_, ?_, [Move.diag, Move.diag], ?_, Or.inl rfl, by decide⟩
  · rw [final_D _ _ _ 2 2 (by decide) (by decide)]
    decide
  · rw [local_alignment_eq]
    decide
  · exact ⟨by decide, by decide, by decide, by decide, trivial⟩

/-- C19, amended: when no candidate sum of the call leaves the range of `int`, for every
interior cell `(i, j)`, `D[i][j]` computed by `local_alignment` is the greatest total score
of the monotone lattice paths that start on row 0 or column 0, have every later cell in the
interior and end at `(i, j)`; and the returned score is the greatest of 0 and the scores of
such paths ending in the bottom row at a column `1 ≤ j ≤ m`. -/
theorem matrix_agrees_with_paths (s1 s2 : List Char) (bpa : BlosumPenaltyArray)
    (hno : NoOverflow s1 s2 bpa) :
    (∀ i j, 1 ≤ i → i ≤ s1.length → 1 ≤ j → j ≤ s2.length →
      IsGreatest (path_scores (fun a b => (get_penalty bpa a b).1) s1 s2 i j)
        (get2 (final_state s1 s2 bpa).D i j 0)) ∧
    ∃ r, local_alignment s1 s2 bpa = some r ∧
      IsGreatest {x | x = 0 ∨ ∃ j, 1 ≤ j ∧ j ≤ s2.length ∧
        x ∈ path_scores (fun a b => (get_penalty bpa a b).1) s1 s2 s1.length j} r.score := by
  have hc := noOverflow_cells s1 s2 bpa hno
  have hpen : (fun a b => (get_penalty bpa a b).1) = penalty_value bpa := rfl
  rw [hpen]
  constructor
  · intro i j _ hin _ hjm
    rw [final_D s1 s2 bpa i j hin hjm]
    exact Dval_is_path_maximum _ s1 s2 _ _ hc i j hin hjm
  · obtain ⟨h0, _, h2, h3, h4, _⟩ :=
      scan_row_spec (Dval (penalty_value bpa) s1 s2 s1.length) s2.length
    refine ⟨_, local_alignment_eq s1 s2 bpa, ?_, ?_⟩
    · simp only [pure_align_pairs, Set.mem_setOf_eq]
      by_cases hz : (scan_row (Dval (penalty_value bpa) s1 s2 s1.length) s2.length).2 = 0
      · exact Or.inl (h2 hz)
      · right
        refine ⟨(scan_row (Dval (penalty_value bpa) s1 s2 s1.length) s2.length).2,
          by omega, by omega, ?_⟩
        rw [(h3 (by omega)).1]
        exact (Dval_is_path_maximum _ s1 s2 _ _ hc _ _ (le_refl _) (by omega)).1
    · intro x hx
      simp only [pure_align_pairs]
      rcases hx with rfl | ⟨j, hj1, hjm, hx⟩
      · exact h0
      · exact le_trans ((Dval_is_path_maximum _ s1 s2 _ _ hc _ _ (le_refl _) hjm).2 hx)
          (h4 j hj1 (by omega))

/-- C19 amended, at cell `(2, 1)` of `seq1 = "AB"`, `seq2 = "A"` with the match/mismatch
table. -/
theorem matrix_agrees_with_paths_witness :
    (NoOverflow ['A', 'B'] ['A'] simple_table ∧
      (1 ≤ 2 ∧ 2 ≤ (['A', 'B'] : List Char).length) ∧ 1 ≤ 1 ∧ 1 ≤ (['A'] : List Char).length) ∧
    IsGreatest (path_scores (fun a b => (get_penalty simple_table a b).1) ['A', 'B'] ['A'] 2 1)
      (get2 (final_state ['A', 'B'] ['A'] simple_table).D 2 1 0) :=
  ⟨⟨by decide, ⟨by decide, by decide⟩, by decide, by decide⟩,
    (matrix_agrees_with_paths ['A', 'B'] ['A'] simple_table (by decide)).1 2 1 (by decide)
      (by decide) (by decide) (by decide)⟩

/-! ## Termination of the traceback -/

/-- The traceback along a stored walk takes one step per move and one more test. -/
theorem traceback_steps (pen : Char → Char → Int) (s1 s2 : List Char) (B : List (List Char))
    (n m : Nat) (hB : ∀ i j, i ≤ n → j ≤ m → get2 B i j '?' = Bval pen s1 s2 i j) :
    ∀ (mv : List Move) (i j : Nat), Follows pen s1 s2 mv i j → i ≤ n → j ≤ m →
      ∀ fuel a1 a2, traceback s1 s2 B fuel i j a1 a2 =
        if mv.length < fuel then
          some (a1 ++ (emit s1 s2 mv i j).map Prod.fst, a2 ++ (emit s1 s2 mv i j).map Prod.snd)
        else none := by
  intro mv
  induction mv with
  | nil =>
    intro i j hf hi hj fuel a1 a2
    cases fuel with
    | zero => simp [traceback]
    | succ fuel =>
      have hq : Bval pen s1 s2 i j = '?' := hf
      simp [traceback, hB i j hi hj, hq, emit]
  | cons a r ih =>
    intro i j hf hi hj fuel a1 a2
    obtain ⟨h1, h2⟩ := hf
    cases fuel with
    | zero => simp [traceback]
    | succ fuel =>
      have eu : ¬ ('u' = '?') := by decide
      have el : ¬ ('l' = '?') := by decide
      have elu : ¬ ('l' = 'u') := by decide
      have ed : ¬ ('d' = '?') := by decide
      have edu : ¬ ('d' = 'u') := by decide
      have edl : ¬ ('d' = 'l') := by decide
      cases a with
      | up =>
        simp only [move_char] at h1
        simp only [prev_cell] at h2
        simp only [traceback, hB i j hi hj, h1, if_true, eu, if_false]
        rw [ih (i - 1) j h2 (by omega) hj]
        simp [emit, emit_pair, prev_cell]
      | left =>
        simp only [move_char] at h1
        simp only [prev_cell] at h2
        simp only [traceback, hB i j hi hj, h1, if_true, el, elu, if_false]
        rw [ih i (j - 1) h2 hi (by omega)]
        simp [emit, emit_pair, prev_cell]
      | diag =>
        simp only [move_char] at h1
        simp only [prev_cell] at h2
        simp only [traceback, hB i j hi hj, h1, if_true, ed, edu, edl, if_false]
        rw [ih (i - 1) (j - 1) h2 (by omega) (by omega)]
        simp [emit, emit_pair, prev_cell]

/-- C20: the traceback loop of `local_alignment` terminates.  Every interior cell carries
one of the tags `'u'`, `'l'`, `'d'`, never `'?'`, and one iteration of the loop at such a
cell moves to a cell with a strictly smaller `i + j`; the loop makes `k ≤ n + m` iterations
(it returns with any fuel above `k` and with no fuel up to `k`), and both aligned strings
have length `k`. -/
theorem traceback_terminates (s1 s2 : List Char) (bpa : BlosumPenaltyArray) :
    (∀ i j, 1 ≤ i → i ≤ s1.length → 1 ≤ j → j ≤ s2.length →
      get2 (final_state s1 s2 bpa).B i j '?' ≠ '?' ∧
      ∃ mv : Move, get2 (final_state s1 s2 bpa).B i j '?' = move_char mv ∧
        (prev_cell mv i j).1 + (prev_cell mv i j).2 < i + j ∧
        ∀ fuel m1 m2, traceback s1 s2 (final_state s1 s2 bpa).B (fuel + 1) i j m1 m2 =
          traceback s1 s2 (final_state s1 s2 bpa).B fuel (prev_cell mv i j).1
            (prev_cell mv i j).2 (m1 ++ [(emit_pair s1 s2 mv i j).1])
            (m2 ++ [(emit_pair s1 s2 mv i j).2])) ∧
    ∃ (r : AlignResult) (k : Nat), local_alignment s1 s2 bpa = some r ∧
      k ≤ s1.length + s2.length ∧
      r.matchString1.length = k ∧ r.matchString2.length = k ∧
      (∀ fuel, k < fuel →
        traceback s1 s2 (final_state s1 s2 bpa).B fuel s1.length (start_col s1 s2 bpa) [] []
          = some (r.matchString1.reverse, r.matchString2.reverse)) ∧
      (∀ fuel, fuel ≤ k →
        traceback s1 s2 (final_state s1 s2 bpa).B fuel s1.length (start_col s1 s2 bpa) [] []
          = none) := by
  constructor
  · intro i j hi1 hin hj1 hjm
    have hb := final_B s1 s2 bpa i j hin hjm
    rcases Bval_cases (penalty_value bpa) s1 s2 i j with ⟨hz, _⟩ | ⟨_, _, mv, hmv, _⟩
    · omega
    · rw [hb, hmv]
      refine ⟨move_char_ne mv, mv, rfl, ?_, ?_⟩
      · cases mv <;> simp only [prev_cell] <;> omega
      · intro fuel m1 m2
        have eu : ¬ ('u' = '?') := by decide
        have el : ¬ ('l' = '?') := by decide
        have elu : ¬ ('l' = 'u') := by decide
        have ed : ¬ ('d' = '?') := by decide
        have edu : ¬ ('d' = 'u') := by decide
        have edl : ¬ ('d' = 'l') := by decide
        cases mv with
        | up =>
          simp only [move_char] at hmv
          simp only [traceback, hb, hmv, if_true, eu, if_false, prev_cell, emit_pair]
        | left =>
          simp only [move_char] at hmv
          simp only [traceback, hb, hmv, if_true, el, elu, if_false, prev_cell, emit_pair]
        | diag =>
          simp only [move_char] at hmv
          simp only [traceback, hb, hmv, if_true, ed, edu, edl, if_false, prev_cell, emit_pair]
  · have hfol := best_trail_follows (penalty_value bpa) s1 s2
    have hint := (follows_interior _ s1 s2 _ _ _ hfol).1
    have hlen := interior_length _ _ _ hint
    have hbj := best_col_le (penalty_value bpa) s1 s2
    have hsteps := traceback_steps (penalty_value bpa) s1 s2 (final_state s1 s2 bpa).B
      s1.length s2.length (fun i j hi hj => final_B s1 s2 bpa i j hi hj) _ _ _ hfol
      (le_refl _) hbj
    refine ⟨_, (best_trail (penalty_value bpa) s1 s2).length, local_alignment_eq s1 s2 bpa,
      by omega, ?_, ?_, ?_, ?_⟩
    · simp [pure_align_pairs, best_pairs, emit_length]
    · simp [pure_align_pairs, best_pairs, emit_length]
    · intro fuel hk
      rw [start_col_eq, hsteps fuel [] [], if_pos hk]
      simp [pure_align_pairs, best_pairs]
    · intro fuel hk
      rw [start_col_eq, hsteps fuel [] [], if_neg (by omega)]

/-- C20 at cell `(1, 1)` of `seq1 = "A"`, `seq2 = "C"` with the match/mismatch table: the
cell carries a tag. -/
theorem traceback_terminates_witness :
    ((1 ≤ 1 ∧ 1 ≤ (['A'] : List Char).length) ∧ 1 ≤ 1 ∧ 1 ≤ (['C'] : List Char).length) ∧
    get2 (final_state ['A'] ['C'] simple_table).B 1 1 '?' ≠ '?' :=
  ⟨⟨⟨by decide, by decide⟩, by decide, by decide⟩,
    ((traceback_terminates ['A'] ['C'] simple_table).1 1 1 (by decide) (by decide)
      (by decide) (by decide)).1⟩

end Project3
